import Mathlib

/-!
# om: a verification development

`om` is a small command-line program that keeps a JSON file of named shell
commands (`name ↦ {"cmd": …, "desc": …}`) and runs a stored command with extra,
shell-escaped arguments.  This file embeds `src/om.cpp` in Lean and proves
properties of the embedded program.

Conventions of the embedding

* `Str` stands for `std::string` / `std::string_view`: a finite sequence of
  `char`s, one list element per `char`.
* `Json` stands for `nlohmann::json`; objects are key-sorted association lists,
  as `std::map` keeps them.
* Everything the program reads from or does to its surroundings (standard
  input, files, `system`, the JSON text codec, the command-line parser) is
  explicit: the mutable part is the record `Sys`, the part that is only
  consulted is the record `Env`.
-/

namespace Om

/-! ## Strings -/

/-- A `std::string` or `std::string_view`: one list element per `char`. -/
abbrev Str := List Char

/-- `s.find(c, pos)` for a single character: the first index `i ≥ pos` with
`s[i] = c`, or `none` for `std::string::npos`. -/
def findChar : Str → Char → Nat → Option Nat
  | [], _, _ => none
  | x :: xs, c, 0 => if x = c then some 0 else (findChar xs c 0).map (· + 1)
  | _ :: xs, c, pos + 1 => (findChar xs c pos).map (· + 1)

/-- `s.replace(pos, len, r)`: the `len` characters from index `pos` are replaced
by `r` (the call sites have `pos < s.size()`). -/
def replace (s : Str) (pos len : Nat) (r : Str) : Str :=
  s.take pos ++ r ++ s.drop (pos + len)

/-- The string literal `"'\\''"` of `escapeShellArg`: the four characters
quote, backslash, quote, quote. -/
def quoteEscape : Str := ['\'', '\\', '\'', '\'']

/-- The `while` loop of `escapeShellArg` on its two variables `escaped` and
`pos`:
`while ((pos = escaped.find('\'', pos)) != npos) { escaped.replace(pos, 1, "'\\''"); pos += 4; }`.
The recursion is the loop itself; it is well founded because the number of
characters from `pos` to the end decreases in every round. -/
def escapeLoop (escaped : Str) (pos : Nat) : Str :=
  match h : findChar escaped '\'' pos with
  | none => escaped
  | some p => escapeLoop (replace escaped p 1 quoteEscape) (p + 4)
termination_by escaped.length - pos
decreasing_by
  have key : ∀ (s : Str) (c : Char) (i j : Nat),
      findChar s c i = some j → i ≤ j ∧ j < s.length := by
    intro s
    induction s with
    | nil => intro c i j hf; simp [findChar] at hf
    | cons x xs ih =>
      intro c i j hf
      cases i with
      | zero =>
        simp only [findChar] at hf
        split at hf
        · simp at hf; subst hf; simp
        · cases hr : findChar xs c 0 with
          | none => simp [hr] at hf
          | some k =>
            simp [hr] at hf
            have := ih c 0 k hr
            subst hf; simp; omega
      | succ i =>
        simp only [findChar] at hf
        cases hr : findChar xs c i with
        | none => simp [hr] at hf
        | some k =>
          simp [hr] at hf
          have := ih c i k hr
          subst hf; simp; omega
  have hk := key escaped '\'' pos p h
  have hlen : (replace escaped p 1 quoteEscape).length = escaped.length + 3 := by
    simp [replace, quoteEscape, List.length_take, List.length_drop]
    omega
  rw [hlen]
  omega

/-- `ProgramManager::escapeShellArg`: copy the argument, run the replacement
loop from position 0, and put the result between two single quotes
(`std::format("'{}'", escaped)`). -/
def escapeShellArg (arg : Str) : Str :=
  ['\''] ++ escapeLoop arg 0 ++ ['\'']

/-- The escaping rule in the words of the specification: every single quote
becomes the four characters close-quote, backslash, single-quote, open-quote;
every other character stays. -/
def replaceQuotes : Str → Str
  | [] => []
  | c :: cs => (if c = '\'' then ['\'', '\\', '\'', '\''] else [c]) ++ replaceQuotes cs

/-- `::tolower` in the "C" locale (the program never calls `setlocale`): the
letters `A`–`Z` go to `a`–`z`, every other `char` is returned as it is. -/
def tolower (c : Char) : Char :=
  if 'A'.toNat ≤ c.toNat ∧ c.toNat ≤ 'Z'.toNat then Char.ofNat (c.toNat + 32) else c

/-- `toLowerCase`: `rng::transform(result, result.begin(), ::tolower)`. -/
def toLowerCase (str : Str) : Str :=
  str.map tolower

/-- `hay.find(needle)` for a string needle, from position 0: the first index at
which `needle` occurs in `hay`, or `none` for `npos`.  The empty needle is found
at index 0 of every string. -/
def findStr : Str → Str → Option Nat
  | [], needle => if needle.isPrefixOf [] then some 0 else none
  | h :: t, needle =>
    if needle.isPrefixOf (h :: t) then some 0 else (findStr t needle).map (· + 1)

/-- `s.c_str()` as the callee reads it: the characters before the first NUL. -/
def cStr (s : Str) : Str :=
  s.takeWhile (· ≠ '\x00')

/-! ## JSON values -/

/-- A `nlohmann::json` value.  Objects are `std::map`s: association lists kept
in increasing key order with no key twice.  Numbers are not looked at by the
program; integers stand for them. -/
inductive Json where
  | null
  | bool (b : Bool)
  | num (n : Int)
  | str (s : Str)
  | arr (items : List Json)
  | obj (members : List (Str × Json))

/-- The key-value pairs of a JSON object. -/
abbrev Members := List (Str × Json)

/-- `std::map::find`: the value stored under `key`, if any. -/
def lookup (key : Str) : Members → Option Json
  | [] => none
  | (k, v) :: t => if key = k then some v else lookup key t

/-- `m[key] = v` on a `std::map`: overwrite the value of an existing key, or
insert the pair at its place in key order. -/
def insert (key : Str) (v : Json) : Members → Members
  | [] => [(key, v)]
  | (k, w) :: t =>
    if key < k then (key, v) :: (k, w) :: t
    else if key = k then (key, v) :: t
    else (k, w) :: insert key v t

/-- `std::map::erase(key)`. -/
def erase (key : Str) : Members → Members
  | [] => []
  | (k, w) :: t => if key = k then t else (k, w) :: erase key t

/-- The keys of a `std::map` are strictly increasing. -/
def KeysSorted : Members → Prop
  | [] => True
  | (k, _) :: t => (∀ p ∈ t, k < p.1) ∧ KeysSorted t

/-- What the program can throw: `ProgramError` with its message (the text after
`"Error: "`), a `nlohmann::json` exception, named by its id (302, 305 and
306 are the type errors of `get`, `operator[]` and `value`; 316 is the UTF-8
error of `dump`), or the `std::filesystem::filesystem_error` of a failed
`fs::copy`, named by the path it could not write.  All are caught as
`std::exception` where `main` has a handler. -/
inductive Err where
  | program (msg : Str)
  | json (id : Nat)
  | filesystem (path : Str)
deriving DecidableEq

namespace Json

/-- `j.contains(key)`: `j` is an object and has the key. -/
def contains (j : Json) (key : Str) : Bool :=
  match j with
  | obj m => (lookup key m).isSome
  | _ => false

/-- The member `j[key]` of an object that has the key (`null` stands for the
other cases, which the callers rule out with `contains` first). -/
def member (j : Json) (key : Str) : Json :=
  match j with
  | obj m => (lookup key m).getD null
  | _ => null

/-- `j.get<std::string>()`: the string of a string value, type error 302
otherwise. -/
def getString (j : Json) : Except Err Str :=
  match j with
  | str s => .ok s
  | _ => .error (.json 302)

/-- `j.value(key, "")`: on an object the member converted to a string, or the
empty default when the key is missing; type error 306 on a non-object. -/
def value (j : Json) (key : Str) : Except Err Str :=
  match j with
  | obj m =>
    match lookup key m with
    | some v => v.getString
    | none => .ok []
  | _ => .error (.json 306)

/-- `j[key] = v` through the non-const `operator[]`: an object gets the member
written, `null` first becomes an empty object, anything else is type error
305. -/
def assign (j : Json) (key : Str) (v : Json) : Except Err Json :=
  match j with
  | obj m => .ok (obj (insert key v m))
  | null => .ok (obj [(key, v)])
  | _ => .error (.json 305)

/-- Elements of an array with their indices, from index `i` on. -/
def indexed (i : Nat) : List Json → Members
  | [] => []
  | v :: vs => ((Nat.repr i).toList, v) :: indexed (i + 1) vs

/-- `j.items()`: the key-value pairs a range-`for` visits.  An object gives its
members in key order, an array its elements under their decimal indices,
`null` nothing, and any other value itself under the empty key. -/
def items (j : Json) : Members :=
  match j with
  | obj m => m
  | arr vs => indexed 0 vs
  | null => []
  | v => [([], v)]

/-- `j.size()`. -/
def size (j : Json) : Nat :=
  match j with
  | obj m => m.length
  | arr vs => vs.length
  | null => 0
  | _ => 1

end Json

/-- The object literal `{{"cmd", cmd}, {"desc", desc}}` that `add` and `edit`
store. -/
def entry (cmd desc : Str) : Json :=
  .obj [("cmd".toList, .str cmd), ("desc".toList, .str desc)]

/-! ## The program's surroundings -/

/-- The lines the program prints (to `std::cout` or `std::cerr`), by content;
separator lines and blank lines are left out. -/
inductive Out where
  | prompt (text : Str)
  | createdFile (path : Str)
  | corrupted
  | backupSaved (path : Str)
  | configSaved (path : Str)
  | warnReserved (name : Str)
  | warnNotInPath (baseCmd : Str)
  | warnNoFile (baseCmd : Str)
  | cancelled
  | added (name : Str)
  | updated (name : Str)
  | details (cmd desc : Str)
  | askDelete (name cmd : Str)
  | deleted (name : Str)
  | noPrograms
  | listHeader (n : Nat)
  | entryLine (key desc : Str)
  | arrowLine (cmd : Str)
  | infoHeader (name : Str)
  | infoCommand (cmd : Str)
  | infoDescription (desc : Str)
  | infoReserved (name : Str)
  | searchHeader (query : Str)
  | noMatches
  | editing (name : Str)
  | currentCommand (cmd : Str)
  | currentDescription (desc : Str)
  | executing (cmd : Str)
  | success
  | failed (exitStatus : Int)
  | exported (n : Nat) (file : Str)
  | askImport (n : Nat) (file : Str)
  | imported (added updated : Nat)
  | value (text : Str)
  | version (programs : Nat)
  | help
  | what (e : Err)
deriving DecidableEq

/-- What the program does to its surroundings, in order: a printed line, a file
opened for writing, a command line handed to `std::system`. -/
inductive Event where
  | out (line : Out)
  | write (path : Str)
  | system (commandLine : Str)
deriving DecidableEq

/-- The subcommand CLI11 recognised (`none`: no subcommand, `main` prints the
help text). -/
inductive Subcommand where
  | add | del | list | info | search | edit | path | desc | exportFile | importFile | run | none
deriving DecidableEq

/-- The variables of `main` that CLI11 fills while parsing. -/
structure Parsed where
  verbose : Bool
  showVersion : Bool
  force : Bool
  name : Str
  cmd : Str
  desc : Str
  query : Str
  filename : Str
  execArgs : List Str
  sub : Subcommand

/-- The outcome of `app.parse(argc, argv)`: the variables filled, or a
`CLI::ParseError` with the code `app.exit(e)` returns for it and what the
failed parse left in `execArgs`. -/
inductive CliResult where
  | ok (p : Parsed)
  | parseError (exitCode : Int) (execArgs : List Str)

/-- The part of the surroundings the program only consults.  None of it is
code of this program: the environment variables, the C library's `system`,
file permissions, nlohmann's text codec and CLI11's parser. -/
structure Env where
  /-- `getenv`. -/
  getenv : Str → Option Str
  /-- `getpwuid(getuid())->pw_dir`. -/
  pwDir : Str
  /-- The status `std::system` returns for a command line. -/
  system : Str → Int
  /-- Whether `std::ofstream` can open the path. -/
  canWrite : Str → Bool
  /-- `j.dump(4)`; `none` when it throws type error 316 (invalid UTF-8). -/
  dump : Json → Option Str
  /-- Parsing a text as JSON; `none` when the parser throws. -/
  parse : Str → Option Json
  /-- The `what()` of the parser's exception for a text it rejects. -/
  parseWhat : Str → Str
  /-- The value of `choice` in `confirm` when nothing could be read into it. -/
  indeterminate : Char
  /-- CLI11's `app.parse` on the argument vector. -/
  cli : List Str → CliResult

/-- The part of the surroundings the program changes: the files by path,
the unread rest of standard input, and the events so far. -/
structure World where
  files : Str → Option Str
  stdin : Str
  trace : List Event

/-- A `ProgramManager` (`configPath`, `data`, `verbose`) together with the
world it acts on. -/
structure Sys extends World where
  configPath : Str
  data : Json
  verbose : Bool

/-- What an operation leaves behind: its return value or the exception it
threw, and the state at that point. -/
abbrev Result (α : Type) := Except Err α × Sys

/-- The files after `path` has been given the content `text`. -/
def writeFile (files : Str → Option Str) (path text : Str) : Str → Option Str :=
  fun p => if p = path then some text else files p

/-- Print one line. -/
def say (line : Out) (s : Sys) : Sys :=
  { s with trace := s.trace ++ [.out line] }

/-- Open `path` with `std::ofstream`, which empties it. -/
def openForWriting (path : Str) (s : Sys) : Sys :=
  { s with files := writeFile s.files path [], trace := s.trace ++ [.write path] }

/-- `getConfigPath`. -/
def getConfigPath (env : Env) : Str :=
  let xdg := (env.getenv "XDG_CONFIG_HOME".toList).getD []
  if xdg ≠ [] then xdg ++ "/om/programs.json".toList
  else
    let home := (env.getenv "HOME".toList).getD env.pwDir
    home ++ "/.config/om/programs.json".toList

/-- The white space `std::cin >> choice` skips. -/
def isspace (c : Char) : Bool :=
  c = ' ' || c = '\t' || c = '\n' || c = '\x0b' || c = '\x0c' || c = '\r'

/-- `std::cin.ignore(n, '\n')`: drop up to `n` characters, stopping after the
first newline. -/
def ignore : Nat → Str → Str
  | 0, input => input
  | _ + 1, [] => []
  | n + 1, c :: rest => if c = '\n' then rest else ignore n rest

/-- `std::getline(std::cin, line)`: the characters before the first newline,
and the input after that newline. -/
def getline (input : Str) : Str × Str :=
  (input.takeWhile (· ≠ '\n'), (input.dropWhile (· ≠ '\n')).drop 1)

/-- The reading part of `confirm`, `std::cin >> choice; std::cin.ignore(10000, '\n')`:
one non-blank character is read and the rest of its line dropped; the answer
is yes for `y` and `Y`.  At the end of input nothing is read and `choice`
keeps its indeterminate value. -/
def readChoice (env : Env) (input : Str) : Bool × Str :=
  match input.dropWhile isspace with
  | [] => (decide (env.indeterminate = 'y' ∨ env.indeterminate = 'Y'), [])
  | choice :: rest => (decide (choice = 'y' ∨ choice = 'Y'), ignore 10000 rest)

/-- `ProgramManager::confirm`: print the prompt and read the answer. -/
def confirm (env : Env) (prompt : Str) (s : Sys) : Bool × Sys :=
  let s := say (.prompt prompt) s
  ((readChoice env s.stdin).1, { s with stdin := (readChoice env s.stdin).2 })

/-- `ProgramManager::ensureConfigExists`, for the file (directories are not
part of the model): a missing config file is created with the text `{}`. -/
def ensureConfigExists (env : Env) (s : Sys) : Sys :=
  if (s.files s.configPath).isNone then
    if env.canWrite s.configPath then
      let s := openForWriting s.configPath s
      let s := { s with files := writeFile s.files s.configPath "\x7b\x7d".toList }
      if s.verbose then say (.createdFile s.configPath) s else s
    else s
  else s

/-- `ProgramManager::load`: read and parse the config file; a file that does
not parse is copied to `<path>.backup` and the store starts as the empty
object.  The copy is `fs::copy`, which throws when the backup cannot be
written; the exception leaves `load` from inside its `catch` block. -/
def load (env : Env) (s : Sys) : Result Unit :=
  let s := ensureConfigExists env s
  match s.files s.configPath with
  | none => (.error (.program "Cannot open config file".toList), s)
  | some text =>
    match env.parse text with
    | some j => (.ok (), { s with data := j })
    | none =>
      let s := say .corrupted s
      let backup := s.configPath ++ ".backup".toList
      if !env.canWrite backup then (.error (.filesystem backup), s)
      else
        let s := say (.backupSaved backup)
          { s with files := writeFile s.files backup text, trace := s.trace ++ [.write backup] }
        (.ok (), { s with data := .obj [] })

/-- The constructor of `ProgramManager`: `data` starts as `null` and `load`
runs. -/
def construct (env : Env) (path : Str) (verb : Bool) (w : World) : Result Unit :=
  load env { toWorld := w, configPath := path, data := .null, verbose := verb }

/-- `ProgramManager::save`: open the config file for writing and write
`data.dump(4)`. -/
def save (env : Env) (s : Sys) : Result Unit :=
  if !env.canWrite s.configPath then
    (.error (.program "Cannot write to config".toList), s)
  else
    let s := openForWriting s.configPath s
    match env.dump s.data with
    | none => (.error (.json 316), s)
    | some text =>
      let s := { s with files := writeFile s.files s.configPath text }
      (.ok (), if s.verbose then say (.configSaved s.configPath) s else s)

/-- `ProgramManager::commandExists`: run `command -v cmd >/dev/null 2>&1`
through `system` and test the status for 0. -/
def commandExists (env : Env) (cmd : Str) (s : Sys) : Bool × Sys :=
  let checkCmd := "command -v ".toList ++ cmd ++ " >/dev/null 2>&1".toList
  (decide (env.system (cStr checkCmd) = 0),
    { s with trace := s.trace ++ [.system (cStr checkCmd)] })

/-- `ProgramManager::RESERVED_NAMES`. -/
def RESERVED_NAMES : List Str :=
  ["add", "delete", "remove", "list", "info", "search",
   "edit", "path", "desc", "export", "import", "run",
   "help", "version", "-h", "--help", "-v", "--version"].map String.toList

/-- `ProgramManager::isReservedName`. -/
def isReservedName (name : Str) : Bool :=
  RESERVED_NAMES.contains name

/-! ## The operations of `ProgramManager` -/

/-- The error `ProgramError(std::format("Program '{}' not found", name))`. -/
def notFound (name : Str) : Err :=
  .program ("Program '".toList ++ name ++ "' not found".toList)

/-- The tail of `add`, from `bool isUpdate = data.contains(name)` on: write the
entry, save, and report an insert or an update. -/
def addEntry (env : Env) (name cmd desc : Str) (s : Sys) : Result Unit :=
  let isUpdate := s.data.contains name
  match s.data.assign name (entry cmd desc) with
  | .error e => (.error e, s)
  | .ok d =>
    match save env { s with data := d } with
    | (.error e, s) => (.error e, s)
    | (.ok (), s) =>
      let s := say (if isUpdate then .updated name else .added name) s
      (.ok (), if s.verbose then say (.details cmd desc) s else s)

/-- The check of the base executable in `add`, run only without `force`:
whether to go on, and the state after the warning and the question. -/
def checkExecutable (env : Env) (baseCmd : Str) (isPath : Bool) (s : Sys) : Bool × Sys :=
  if !isPath then
    let (found, s) := commandExists env baseCmd s
    if !found then confirm env "Add anyway?".toList (say (.warnNotInPath baseCmd) s)
    else (true, s)
  else if (s.files baseCmd).isNone then
    confirm env "Add anyway?".toList (say (.warnNoFile baseCmd) s)
  else (true, s)

/-- What `add` does with the outcome of the check of the base executable:
stop with `Cancelled.` after a no, write the entry otherwise. -/
def afterCheck (env : Env) (name cmd desc : Str) (checked : Bool × Sys) : Result Unit :=
  if !checked.1 then (.ok (), say .cancelled checked.2)
  else addEntry env name cmd desc checked.2

/-- The base executable of a command: `std::string baseCmd(cmd.begin(),
rng::find(cmd, ' '))`, the characters before the first space. -/
def baseCommand (cmd : Str) : Str :=
  cmd.takeWhile (· ≠ ' ')

/-- The part of `add` after the reserved-name question. -/
def addChecked (env : Env) (name cmd desc : Str) (force : Bool) (s : Sys) : Result Unit :=
  if !force then
    afterCheck env name cmd desc
      (checkExecutable env (baseCommand cmd) (findChar (baseCommand cmd) '/' 0).isSome s)
  else addEntry env name cmd desc s

/-- `ProgramManager::add`. -/
def add (env : Env) (name cmd desc : Str) (force : Bool) (s : Sys) : Result Unit :=
  if name.isEmpty || cmd.isEmpty then
    (.error (.program "Name and command cannot be empty".toList), s)
  else if isReservedName name then
    let s := say (.warnReserved name) s
    if !force then
      let (yes, s) := confirm env "Continue anyway?".toList s
      if !yes then (.ok (), say .cancelled s)
      else addChecked env name cmd desc force s
    else addChecked env name cmd desc force s
  else addChecked env name cmd desc force s

/-- The tail of `remove`: `data.erase(name); save();` and the report. -/
def removeEntry (env : Env) (name : Str) (s : Sys) : Result Unit :=
  match s.data with
  | .obj m =>
    match save env { s with data := .obj (erase name m) } with
    | (.error e, s) => (.error e, s)
    | (.ok (), s) => (.ok (), say (.deleted name) s)
  | _ => (.error (.json 307), s)

/-- `data[name]` with its member `key` set to `null`, as the non-const
`operator[]` leaves it after a read of a missing member. -/
def withNullMember (data : Json) (name key : Str) (members : Members) : Json :=
  match data with
  | .obj m => .obj (insert name (.obj (insert key .null members)) m)
  | j => j

/-- `ProgramManager::remove`.  Without `force` the stored command is read with
`data[name]["cmd"].get<std::string>()` on the non-const `data`. -/
def remove (env : Env) (name : Str) (force : Bool) (s : Sys) : Result Unit :=
  if !s.data.contains name then (.error (notFound name), s)
  else if !force then
    match s.data.member name with
    | .obj em =>
      match lookup "cmd".toList em with
      | some (.str cmdStr) =>
        let (yes, s) := confirm env "Are you sure?".toList (say (.askDelete name cmdStr) s)
        if !yes then (.ok (), say .cancelled s)
        else removeEntry env name s
      | some _ => (.error (.json 302), s)
      | none =>
        (.error (.json 302), { s with data := withNullMember s.data name "cmd".toList em })
    | .null =>
      (.error (.json 302), { s with data := withNullMember s.data name "cmd".toList [] })
    | _ => (.error (.json 305), s)
  else removeEntry env name s

/-- The expression `val.contains(key) ? val[key].get<std::string>() : ""`. -/
def fieldOrEmpty (val : Json) (key : Str) : Except Err Str :=
  if val.contains key then (val.member key).getString else .ok []

/-- The loop of `list` over `data.items()`. -/
def listLoop : Members → Sys → Result Unit
  | [], s => (.ok (), s)
  | (key, val) :: rest, s =>
    match fieldOrEmpty val "desc".toList with
    | .error e => (.error e, s)
    | .ok desc =>
      let s := say (.entryLine key desc) s
      if s.verbose && val.contains "cmd".toList then
        match (val.member "cmd".toList).getString with
        | .error e => (.error e, s)
        | .ok cmd => listLoop rest (say (.arrowLine cmd) s)
      else listLoop rest s

/-- `ProgramManager::list`. -/
def list (s : Sys) : Result Unit :=
  if s.data.size = 0 then (.ok (), say .noPrograms s)
  else listLoop s.data.items (say (.listHeader s.data.size) s)

/-- `ProgramManager::info`. -/
def info (name : Str) (s : Sys) : Result Unit :=
  if !s.data.contains name then (.error (notFound name), s)
  else
    let val := s.data.member name
    let s := say (.infoHeader name) s
    match (if val.contains "cmd".toList then (val.member "cmd".toList).getString.map some
           else .ok none) with
    | .error e => (.error e, s)
    | .ok cmd =>
      let s := match cmd with
        | some c => say (.infoCommand c) s
        | none => s
      match (if val.contains "desc".toList then (val.member "desc".toList).getString.map some
             else .ok none) with
      | .error e => (.error e, s)
      | .ok desc =>
        let s := match desc with
          | some d => say (.infoDescription d) s
          | none => s
        (.ok (), if isReservedName name then say (.infoReserved name) s else s)

/-- The condition of `search` for one entry: the lower-cased query is found
in the lower-cased key, description or command. -/
def searchMatch (lowerQuery key desc cmd : Str) : Bool :=
  (findStr (toLowerCase key) lowerQuery).isSome ||
  (findStr (toLowerCase desc) lowerQuery).isSome ||
  (findStr (toLowerCase cmd) lowerQuery).isSome

/-- The loop of `search` over `data.items()`, with its variable `found`. -/
def searchLoop (lowerQuery : Str) : Members → Bool → Sys → Result Bool
  | [], found, s => (.ok found, s)
  | (key, val) :: rest, found, s =>
    match fieldOrEmpty val "desc".toList with
    | .error e => (.error e, s)
    | .ok desc =>
      match fieldOrEmpty val "cmd".toList with
      | .error e => (.error e, s)
      | .ok cmd =>
        if searchMatch lowerQuery key desc cmd then
          let s := say (.entryLine key desc) s
          searchLoop lowerQuery rest true (if s.verbose then say (.arrowLine cmd) s else s)
        else searchLoop lowerQuery rest found s

/-- `ProgramManager::search`. -/
def search (query : Str) (s : Sys) : Result Unit :=
  let lowerQuery := toLowerCase query
  match searchLoop lowerQuery s.data.items false (say (.searchHeader query) s) with
  | (.error e, s) => (.error e, s)
  | (.ok found, s) => (.ok (), if !found then say .noMatches s else s)

/-- `ProgramManager::edit`. -/
def edit (env : Env) (name : Str) (s : Sys) : Result Unit :=
  if !s.data.contains name then (.error (notFound name), s)
  else
    match (s.data.member name).value "cmd".toList with
    | .error e => (.error e, s)
    | .ok currentCmd =>
      match (s.data.member name).value "desc".toList with
      | .error e => (.error e, s)
      | .ok currentDesc =>
        let s := say (.currentCommand currentCmd) (say (.editing name) s)
        let (newCmd, input) := getline s.stdin
        let s := { s with stdin := input }
        let currentCmd := if !newCmd.isEmpty then newCmd else currentCmd
        let s := say (.currentDescription currentDesc) s
        let (newDesc, input) := getline s.stdin
        let s := { s with stdin := input }
        let currentDesc := if !newDesc.isEmpty then newDesc else currentDesc
        match s.data.assign name (entry currentCmd currentDesc) with
        | .error e => (.error e, s)
        | .ok d =>
          match save env { s with data := d } with
          | (.error e, s) => (.error e, s)
          | (.ok (), s) => (.ok (), say (.updated name) s)

/-- The loop of `execute` that builds the command line:
`for (const auto& arg : args) cmd += " " + escapeShellArg(arg);`. -/
def appendArgs (cmd : Str) : List Str → Str
  | [] => cmd
  | arg :: rest => appendArgs (cmd ++ (" ".toList ++ escapeShellArg arg)) rest

/-- `WEXITSTATUS(status)`. -/
def WEXITSTATUS (status : Int) : Int :=
  (status / 256) % 256

/-- `ProgramManager::execute`. -/
def execute (env : Env) (name : Str) (args : List Str) (s : Sys) : Result Unit :=
  if !s.data.contains name || !(s.data.member name).contains "cmd".toList then
    (.error (.program ("Program '".toList ++ name ++
      "' not found.\nRun 'om list' to see available programs.".toList)), s)
  else
    match ((s.data.member name).member "cmd".toList).getString with
    | .error e => (.error e, s)
    | .ok stored =>
      let cmd := appendArgs stored args
      let s := if s.verbose then say (.executing cmd) s else s
      let result := env.system (cStr cmd)
      let s := { s with trace := s.trace ++ [.system (cStr cmd)] }
      if s.verbose then
        (.ok (), if result = 0 then say .success s else say (.failed (WEXITSTATUS result)) s)
      else if result ≠ 0 then (.ok (), say (.failed (WEXITSTATUS result)) s)
      else (.ok (), s)

/-- `ProgramManager::exportTo`.  The file is opened under `filename.data()`. -/
def exportTo (env : Env) (filename : Str) (s : Sys) : Result Unit :=
  if !env.canWrite (cStr filename) then
    (.error (.program ("Cannot write to ".toList ++ filename)), s)
  else
    let s := openForWriting (cStr filename) s
    match env.dump s.data with
    | none => (.error (.json 316), s)
    | some text =>
      (.ok (), say (.exported s.data.size filename)
        { s with files := writeFile s.files (cStr filename) text })

/-- The merge loop of `importFrom` over `importData.items()`, with its
counters `added` and `updated`; the exception of a failed `data[key] = val`
leaves `data` as it was. -/
def mergeLoop : Members → Json → Nat → Nat → Except Err (Nat × Nat) × Json
  | [], data, added, updated => (.ok (added, updated), data)
  | (key, val) :: rest, data, added, updated =>
    let counts := if data.contains key then (added, updated + 1) else (added + 1, updated)
    match data.assign key val with
    | .error e => (.error e, data)
    | .ok d => mergeLoop rest d counts.1 counts.2

/-- The part of `importFrom` after the question: merge, save, report. -/
def importMerge (env : Env) (importData : Json) (s : Sys) : Result Unit :=
  match mergeLoop importData.items s.data 0 0 with
  | (.error e, d) => (.error e, { s with data := d })
  | (.ok (added, updated), d) =>
    match save env { s with data := d } with
    | (.error e, s) => (.error e, s)
    | (.ok (), s) => (.ok (), say (.imported added updated) s)

/-- `ProgramManager::importFrom`.  The file is looked up and opened under
`filename.data()`. -/
def importFrom (env : Env) (filename : Str) (force : Bool) (s : Sys) : Result Unit :=
  match s.files (cStr filename) with
  | none => (.error (.program ("File not found: ".toList ++ filename)), s)
  | some text =>
    match env.parse text with
    | none => (.error (.program ("Invalid JSON file: ".toList ++ env.parseWhat text)), s)
    | some importData =>
      if !force then
        let (yes, s) := confirm env "Continue?".toList (say (.askImport importData.size filename) s)
        if !yes then (.ok (), say .cancelled s)
        else importMerge env importData s
      else importMerge env importData s

/-- `ProgramManager::getPath`. -/
def getPath (name : Str) (s : Sys) : Except Err Str :=
  if !s.data.contains name || !(s.data.member name).contains "cmd".toList then
    .error (notFound name)
  else ((s.data.member name).member "cmd".toList).getString

/-- `ProgramManager::getDescription`. -/
def getDescription (name : Str) (s : Sys) : Except Err Str :=
  if !s.data.contains name || !(s.data.member name).contains "desc".toList then
    .error (.program ("No description for '".toList ++ name ++ "'".toList))
  else ((s.data.member name).member "desc".toList).getString

/-- `ProgramManager::showVersion`. -/
def showVersion (s : Sys) : Sys :=
  say (.version s.data.size) s

/-! ## `main` -/

/-- How the process ends: `main` returns a code, or an exception leaves `main`
uncaught and `std::terminate` aborts the process. -/
inductive Exit where
  | code (n : Int)
  | terminated
deriving DecidableEq

/-- The `if`/`else if` chain of `main` that calls the operation of the parsed
subcommand. -/
def dispatch (env : Env) (p : Parsed) (s : Sys) : Result Unit :=
  match p.sub with
  | .add => add env p.name p.cmd p.desc p.force s
  | .del => remove env p.name p.force s
  | .list => list s
  | .info => info p.name s
  | .search => search p.query s
  | .edit => edit env p.name s
  | .path =>
    match getPath p.name s with
    | .error e => (.error e, s)
    | .ok v => (.ok (), say (.value v) s)
  | .desc =>
    match getDescription p.name s with
    | .error e => (.error e, s)
    | .ok v => (.ok (), say (.value v) s)
  | .exportFile => exportTo env p.filename s
  | .importFile => importFrom env p.filename p.force s
  | .run => execute env p.name p.execArgs s
  | .none => (.ok (), say .help s)

/-- The handler `catch (const std::exception& e)` around an operation: print
`e.what()` and return 1; without an exception `main` returns 0. -/
def exitOf (r : Result Unit) : Exit × World :=
  match r with
  | (.error e, s) => (.code 1, (say (.what e) s).toWorld)
  | (.ok (), s) => (.code 0, s.toWorld)

/-- The function `main` on the argument vector `argv` (with `argv[0]`). -/
def main (env : Env) (argv : List Str) (w : World) : Exit × World :=
  match env.cli argv with
  | .parseError exitCode execArgs =>
    match argv with
    | _ :: first :: more =>
      if first.headD '\x00' ≠ '-' then
        match construct env (getConfigPath env) false w with
        | (.error e, s) => exitOf (.error e, s)
        | (.ok (), s) => exitOf (execute env first (execArgs ++ more) s)
      else (.code exitCode, w)
    | _ => (.code exitCode, w)
  | .ok p =>
    if p.showVersion then
      match construct env (getConfigPath env) p.verbose w with
      | (.error _, s) => (.terminated, s.toWorld)
      | (.ok (), s) => (.code 0, (showVersion s).toWorld)
    else
      match construct env (getConfigPath env) p.verbose w with
      | (.error _, s) => (.terminated, s.toWorld)
      | (.ok (), s) => exitOf (dispatch env p s)

/-! ## Vocabulary of the statements -/

/-- The command lines handed to `std::system`, in order, among the events. -/
def systemCalls : List Event → List Str
  | [] => []
  | .system line :: rest => line :: systemCalls rest
  | _ :: rest => systemCalls rest

/-- The printed lines, in order, among the events. -/
def printed : List Event → List Out
  | [] => []
  | .out line :: rest => line :: printed rest
  | _ :: rest => printed rest

/-- The files opened for writing, in order, among the events. -/
def written : List Event → List Str
  | [] => []
  | .write path :: rest => path :: written rest
  | _ :: rest => written rest

/-- Whether an operation returned, rather than threw. -/
def returned (r : Result Unit) : Bool :=
  match r.1 with
  | .ok _ => true
  | .error _ => false

/-- For each argument in order: one space and the escaped argument. -/
def argSuffix : List Str → Str
  | [] => []
  | arg :: rest => ' ' :: escapeShellArg arg ++ argSuffix rest

/-- The only thing `execute` hands to the shell, on top of what was handed to
it before, is the command line `line`. -/
def HandsToShell (env : Env) (name : Str) (args : List Str) (s : Sys) (line : Str) : Prop :=
  systemCalls (execute env name args s).2.trace = systemCalls s.trace ++ [line]

/-- An environment for the examples: no variables set, every command
succeeds, every file can be written, no text parses. -/
def quietEnv : Env where
  getenv := fun _ => none
  pwDir := "/home/u".toList
  system := fun _ => 0
  canWrite := fun _ => true
  dump := fun _ => some []
  parse := fun _ => none
  parseWhat := fun _ => []
  indeterminate := 'n'
  cli := fun _ => .parseError 1 []

/-- A manager holding `data`, with no files, no input and no events yet. -/
def freshSys (data : Json) : Sys where
  files := fun _ => none
  stdin := []
  trace := []
  configPath := "/home/u/.config/om/programs.json".toList
  data := data
  verbose := false

/-- The words the POSIX shell reads from a command line, for the rules that
matter to a quoted argument: text between single quotes is literal, a
backslash outside quotes makes the next character literal, adjacent pieces
form one word, blanks outside quotes end a word (and a backslash before a
newline continues the line).  `cur` is the word being
read, if any, and `inQuote` tells whether a single quote is open.  The result
is `none` for an unterminated quote, a trailing backslash, or an operator or
expansion character outside quotes, which this reader does not interpret. -/
def shellRead : Str → Option Str → Bool → Option (List Str)
  | [], cur, false => some cur.toList
  | [], _, true => none
  | c :: rest, cur, true =>
    if c = '\'' then shellRead rest cur false
    else shellRead rest (some (cur.getD [] ++ [c])) true
  | ['\\'], _, false => none
  | '\\' :: d :: rest, cur, false =>
    if d = '\n' then shellRead rest cur false
    else shellRead rest (some (cur.getD [] ++ [d])) false
  | c :: rest, cur, false =>
    if c = '\'' then shellRead rest (some (cur.getD [])) true
    else if c = ' ' ∨ c = '\t' ∨ c = '\n' then
      (shellRead rest none false).map (cur.toList ++ ·)
    else if c ∈ "|&;<>()$`\"*?[#~=%!".toList ∨ c = '\x7b' ∨ c = '\x7d' then none
    else shellRead rest (some (cur.getD [] ++ [c])) false

/-- The words of a command line read from the start. -/
def shellWords (line : Str) : Option (List Str) :=
  shellRead line none false

/-- The characters of a command line that stand outside single quotes without
a backslash before them, the quotes and backslashes themselves apart. -/
def bareChars : Str → Bool → Str
  | [], _ => []
  | c :: rest, true => if c = '\'' then bareChars rest false else bareChars rest true
  | ['\\'], false => []
  | '\\' :: _ :: rest, false => bareChars rest false
  | c :: rest, false =>
    if c = '\'' then bareChars rest true else c :: bareChars rest false

/-- The text shown for a field of an entry: the string stored under `key`, and
the empty string for a missing field. -/
def fieldText (val : Json) (key : Str) : Str :=
  match val.member key with
  | .str t => t
  | _ => []

/-- The schema of the config file for one entry: a `cmd` or `desc` field that
is present is a string. -/
def StringFields (val : Json) : Prop :=
  ∀ key, key = "cmd".toList ∨ key = "desc".toList →
    val.contains key = true → ∃ t, val.member key = .str t

/-- The capital letters that the lower-casing of the specification changes. -/
def capitalLetters : Str := "ABCDEFGHIJKLMNOPQRSTUVWXYZ".toList

/-- The small letters, in the order of `capitalLetters`. -/
def smallLetters : Str := "abcdefghijklmnopqrstuvwxyz".toList

/-- Each capital letter with its small letter. -/
def letterPairs : List (Char × Char) := capitalLetters.zip smallLetters

/-- The small letter that a table of (capital, small) pairs gives for `c`, and
`c` itself when the table has no pair for it. -/
def lowerIn : List (Char × Char) → Char → Char
  | [], c => c
  | (capital, small) :: rest, c => if c = capital then small else lowerIn rest c

/-- Lower-casing one character, in the words of the specification: a capital
letter `A`–`Z` becomes its small letter, every other character stays. -/
def lowerLetter (c : Char) : Char := lowerIn letterPairs c

/-- A text lower-cased, character by character. -/
def lowered (text : Str) : Str := text.map lowerLetter

/-- Two characters are equal or are the capital and the small form of one
letter `A`–`Z`. -/
def SameLetter (x y : Char) : Prop :=
  x = y ∨ (x, y) ∈ letterPairs ∨ (y, x) ∈ letterPairs

/-- Two texts are case variants of each other: they have the same length and
differ at most in the case of letters `A`–`Z`. -/
def CaseVariant (a b : Str) : Prop := List.Forall₂ SameLetter a b

/-- The condition of the specification for `search`: the lower-cased query is
a substring of the lower-cased name, description or command, a missing field
counting as empty. -/
def Matches (query key : Str) (val : Json) : Prop :=
  lowered query <:+: lowered key ∨
  lowered query <:+: lowered (fieldText val "desc".toList) ∨
  lowered query <:+: lowered (fieldText val "cmd".toList)

/-- The condition of the specification can be decided. -/
instance decidableMatches (query key : Str) (val : Json) : Decidable (Matches query key val) :=
  inferInstanceAs (Decidable (_ ∨ _ ∨ _))

/-- The entries of `m`, in order, that meet the condition of the
specification. -/
def hits (query : Str) (m : Members) : Members :=
  m.filter fun p => decide (Matches query p.1 p.2)

/-- The lines `search` prints for the selected entries: name and description,
and below them the command when `verbose` is set. -/
def hitLines (verbose : Bool) : Members → List Event
  | [] => []
  | (key, val) :: rest =>
    .out (.entryLine key (fieldText val "desc".toList)) ::
      ((if verbose then [.out (.arrowLine (fieldText val "cmd".toList))] else []) ++
        hitLines verbose rest)

/-- The bytes of `café` in UTF-8: `é` is the two bytes C3 A9. -/
def cafe : Str := ['c', 'a', 'f', '\xc3', '\xa9']

/-- The bytes of `CAFÉ` in UTF-8: `É` is the two bytes C3 89. -/
def cafeCapital : Str := ['C', 'A', 'F', '\xc3', '\x89']

/-- A store whose one entry is named `café`. -/
def cafeStore : Json :=
  .obj [(cafe, entry "espresso".toList [])]

/-- A store whose entry `x` has a command with a NUL character in it, as the
JSON text `"echo a\u0000b"` gives. -/
def nulStore : Json :=
  .obj [("x".toList, entry "echo a\x00b".toList [])]

/-- The store of the scenario: `build` runs `make -j4`. -/
def buildStore : Json :=
  .obj [("build".toList, entry "make -j4".toList "build project".toList)]

/-- A store whose entry `x` runs `false`, a command that exits with 1. -/
def failStore : Json :=
  .obj [("x".toList, entry "false".toList [])]

/-- The text standing for the config file of `failStore`. -/
def failText : Str :=
  "\x7b\"x\":\x7b\"cmd\":\"false\",\"desc\":\"\"\x7d\x7d".toList

/-- The variables of `main` after `om run x` has been parsed. -/
def runX : Parsed where
  verbose := false
  showVersion := false
  force := false
  name := "x".toList
  cmd := []
  desc := []
  query := []
  filename := []
  execArgs := []
  sub := .run

/-- An environment in which the command line `false` ends with exit status 1
(`system` returns 256), `om run x` parses as the `run` subcommand, any other
argument vector is a parse error, and `failText` parses to `failStore`. -/
def failEnv : Env where
  getenv := fun _ => none
  pwDir := "/home/u".toList
  system := fun line => if line = "false".toList then 256 else 0
  canWrite := fun _ => true
  dump := fun _ => some failText
  parse := fun text => if text = failText then some failStore else none
  parseWhat := fun _ => []
  indeterminate := 'n'
  cli := fun argv =>
    if argv = ["om".toList, "run".toList, "x".toList] then .ok runX else .parseError 109 []

/-- A world whose config file holds `failText`. -/
def failWorld : World where
  files := fun p => if p = "/home/u/.config/om/programs.json".toList then some failText else none
  stdin := []
  trace := []

/-- The members after every pair of `incoming` has been written, in order,
into `store`. -/
def mergeAll (store incoming : Members) : Members :=
  incoming.foldl (fun acc p => insert p.1 p.2 acc) store

/-- The number of incoming keys that `store` does not have. -/
def countNew (store incoming : Members) : Nat :=
  (incoming.filter fun p => !(lookup p.1 store).isSome).length

/-- The number of incoming keys that `store` already has. -/
def countOld (store incoming : Members) : Nat :=
  (incoming.filter fun p => (lookup p.1 store).isSome).length

/-- An entry has both a `cmd` field and a `desc` field. -/
def HasBothFields (val : Json) : Prop :=
  val.contains "cmd".toList = true ∧ val.contains "desc".toList = true

/-- The incoming mapping of the scenario: `a` runs `echo a`, with the empty
description. -/
def incomingA : Members :=
  [("a".toList, entry "echo a".toList [])]

/-- An incoming mapping whose entry `a` has a command and no description. -/
def incomingBare : Members :=
  [("a".toList, .obj [("cmd".toList, .str "echo a".toList)])]

/-- An environment whose codec knows three texts: `A` is the text of
`incomingA`, `B` the text of `incomingBare`, `M` the text of `buildStore`;
every value is dumped as `M`. -/
def codecEnv : Env where
  getenv := fun _ => none
  pwDir := "/home/u".toList
  system := fun _ => 0
  canWrite := fun _ => true
  dump := fun _ => some "M".toList
  parse := fun text =>
    if text = "A".toList then some (.obj incomingA)
    else if text = "B".toList then some (.obj incomingBare)
    else if text = "M".toList then some buildStore
    else none
  parseWhat := fun _ => []
  indeterminate := 'n'
  cli := fun _ => .parseError 1 []

/-- A manager holding `data` in a world whose file `in.json` has the given
text. -/
def sysWithFile (data : Json) (text : Str) : Sys where
  files := fun p => if p = "in.json".toList then some text else none
  stdin := []
  trace := []
  configPath := "/home/u/.config/om/programs.json".toList
  data := data
  verbose := false

/-- A second manager, with its own config path and the empty store `{}`, in
the world that `world` has come to. -/
def emptyManager (world : Sys) (configPath : Str) (verbose : Bool) : Sys :=
  { world with configPath := configPath, data := .obj [], verbose := verbose }

/-- A store that already contains `a`. -/
def storeA : Json :=
  .obj [("a".toList, entry "true".toList "old".toList)]

/-- The lines `add` with `force` prints when it gets through: the warning for
a reserved name, the line of a verbose `save`, the report of an insert or of
an update, and the details of a verbose manager. -/
def addReport (name cmd desc configPath : Str) (reserved verbose isUpdate : Bool) : List Out :=
  (if reserved then [.warnReserved name] else []) ++
    (if verbose then [.configSaved configPath] else []) ++
    [if isUpdate then .updated name else .added name] ++
    (if verbose then [.details cmd desc] else [])

/-! ## Strings: lemmas -/

theorem findChar_append_length (pre rest : Str) (c : Char) :
    findChar (pre ++ rest) c pre.length = (findChar rest c 0).map (· + pre.length) := by
  induction pre with
  | nil => simp
  | cons x xs ih =>
    show Option.map (· + 1) (findChar (xs ++ rest) c xs.length) = _
    rw [ih]
    cases findChar rest c 0 with
    | none => rfl
    | some k => simp [Nat.add_assoc]

theorem escapeLoop_none (s : Str) (pos : Nat) (h : findChar s '\'' pos = none) :
    escapeLoop s pos = s := by
  rw [escapeLoop]
  split
  · rfl
  · simp_all

theorem escapeLoop_some (s : Str) (pos p : Nat) (h : findChar s '\'' pos = some p) :
    escapeLoop s pos = escapeLoop (replace s p 1 quoteEscape) (p + 4) := by
  rw [escapeLoop]
  split
  · simp_all
  · simp_all

theorem escapeLoop_append (pre rest : Str) :
    escapeLoop (pre ++ rest) pre.length = pre ++ replaceQuotes rest := by
  induction rest generalizing pre with
  | nil =>
    rw [escapeLoop_none]
    · simp [replaceQuotes]
    · rw [findChar_append_length]; simp [findChar]
  | cons c cs ih =>
    by_cases hc : c = '\''
    · subst hc
      have hf : findChar (pre ++ '\'' :: cs) '\'' pre.length = some pre.length := by
        rw [findChar_append_length]; simp [findChar]
      rw [escapeLoop_some _ _ _ hf]
      have hr : replace (pre ++ '\'' :: cs) pre.length 1 quoteEscape
          = (pre ++ quoteEscape) ++ cs := by
        simp [replace, List.take_append_eq_append_take, List.drop_append_eq_append_drop]
      have hl : pre.length + 4 = (pre ++ quoteEscape).length := by
        simp [quoteEscape]
      rw [hr, hl, ih]
      simp [replaceQuotes, quoteEscape]
    · have h1 : findChar (pre ++ c :: cs) '\'' pre.length
          = findChar ((pre ++ [c]) ++ cs) '\'' (pre ++ [c]).length := by
        rw [findChar_append_length, findChar_append_length]
        simp only [findChar, hc, if_false, Option.map_map, List.length_append,
          List.length_singleton]
        cases findChar cs '\'' 0 with
        | none => rfl
        | some k => simp; omega
      have h2 : pre ++ c :: cs = (pre ++ [c]) ++ cs := by simp
      have h3 := ih (pre ++ [c])
      cases hq : findChar ((pre ++ [c]) ++ cs) '\'' (pre ++ [c]).length with
      | none =>
        rw [escapeLoop_none _ _ hq] at h3
        rw [escapeLoop_none _ _ (h1.trans hq), h2, h3]
        simp [replaceQuotes, hc]
      | some p =>
        rw [escapeLoop_some _ _ _ hq] at h3
        rw [escapeLoop_some _ _ _ (h1.trans hq), h2, h3]
        simp [replaceQuotes, hc]

theorem escapeShellArg_eq (s : Str) :
    escapeShellArg s = ['\''] ++ replaceQuotes s ++ ['\''] := by
  have h := escapeLoop_append [] s
  simp only [List.nil_append, List.length_nil] at h
  simp [escapeShellArg, h]

theorem appendArgs_eq (cmd : Str) (args : List Str) :
    appendArgs cmd args = cmd ++ argSuffix args := by
  induction args generalizing cmd with
  | nil => simp [appendArgs, argSuffix]
  | cons a rest ih => simp [appendArgs, argSuffix, ih]

theorem cStr_eq_self (x : Str) (h : '\x00' ∉ x) : cStr x = x := by
  induction x with
  | nil => rfl
  | cons c cs ih =>
    simp only [List.mem_cons, not_or] at h
    have hc : c ≠ '\x00' := fun e => h.1 e.symm
    simp only [cStr] at ih ⊢
    rw [List.takeWhile_cons, ih h.2]
    simp [hc]

theorem mem_replaceQuotes (x : Char) (s : Str) (hx : x ≠ '\'') (hb : x ≠ '\\') :
    x ∈ replaceQuotes s ↔ x ∈ s := by
  induction s with
  | nil => simp [replaceQuotes]
  | cons c cs ih =>
    by_cases hc : c = '\''
    · subst hc
      simp [replaceQuotes, ih, hx, hb]
    · simp [replaceQuotes, hc, ih]

theorem nul_not_mem_escapeShellArg (a : Str) (h : '\x00' ∉ a) :
    '\x00' ∉ escapeShellArg a := by
  rw [escapeShellArg_eq]
  have := (mem_replaceQuotes '\x00' a (by decide) (by decide)).not.mpr h
  simp [this]

theorem nul_not_mem_argSuffix (args : List Str) (h : ∀ a ∈ args, '\x00' ∉ a) :
    '\x00' ∉ argSuffix args := by
  induction args with
  | nil => simp [argSuffix]
  | cons a rest ih =>
    have h1 := nul_not_mem_escapeShellArg a (h a (by simp))
    have h2 := ih (fun b hb => h b (by simp [hb]))
    simp [argSuffix, h1, h2]

theorem systemCalls_append (t u : List Event) :
    systemCalls (t ++ u) = systemCalls t ++ systemCalls u := by
  induction t with
  | nil => rfl
  | cons e t ih => cases e <;> simp [systemCalls, ih]

theorem printed_append (t u : List Event) :
    printed (t ++ u) = printed t ++ printed u := by
  induction t with
  | nil => rfl
  | cons e t ih => cases e <;> simp [printed, ih]

theorem written_append (t u : List Event) :
    written (t ++ u) = written t ++ written u := by
  induction t with
  | nil => rfl
  | cons e t ih => cases e <;> simp [written, ih]

theorem execute_hands (env : Env) (name c : Str) (args : List Str) (s : Sys)
    (hname : s.data.contains name = true)
    (hcmd : (s.data.member name).contains "cmd".toList = true)
    (hstr : (s.data.member name).member "cmd".toList = .str c) :
    (execute env name args s).1 = .ok () ∧
      HandsToShell env name args s (cStr (c ++ argSuffix args)) := by
  unfold HandsToShell execute
  simp only [hname, hcmd, hstr, Json.getString, appendArgs_eq]
  by_cases hv : s.verbose = true <;> by_cases hr : env.system (cStr (c ++ argSuffix args)) = 0 <;>
    simp [hv, hr, say, systemCalls_append, systemCalls]

theorem shellRead_quoted (s acc : Str) :
    shellRead (replaceQuotes s ++ ['\'']) (some acc) true = some [acc ++ s] := by
  induction s generalizing acc with
  | nil => simp [replaceQuotes, shellRead]
  | cons c cs ih =>
    by_cases hc : c = '\''
    · subst hc
      have h := ih (acc ++ ['\''])
      simp [replaceQuotes, shellRead, h]
    · have h := ih (acc ++ [c])
      simp [replaceQuotes, shellRead, hc, h]

theorem bareChars_quoted (s : Str) :
    bareChars (replaceQuotes s ++ ['\'']) true = [] := by
  induction s with
  | nil => simp [replaceQuotes, bareChars]
  | cons c cs ih =>
    by_cases hc : c = '\''
    · subst hc
      simp [replaceQuotes, bareChars, ih]
    · simp [replaceQuotes, bareChars, hc, ih]

theorem shellWords_escapeShellArg (s : Str) :
    shellWords (escapeShellArg s) = some [s] := by
  rw [escapeShellArg_eq]
  have h := shellRead_quoted s []
  simp [shellWords, shellRead, h]

/-! ## Execute: the command line -/

/-- C1, as the program has it: when `name` has the stored command `c`, and
neither `c` nor any argument contains a NUL character, `execute` succeeds and
the one command line it hands to the shell is exactly `c` followed, for each
argument in order, by one space and `escapeShellArg` of the argument; with no
arguments it is exactly `c`.  (The string `execute` builds has this form for
every `c` and every argument list; it reaches `system` as a C string.) -/
theorem execute_command_line (env : Env) (name c : Str) (args : List Str) (s : Sys)
    (hname : s.data.contains name = true)
    (hcmd : (s.data.member name).contains "cmd".toList = true)
    (hstr : (s.data.member name).member "cmd".toList = .str c)
    (hc : '\x00' ∉ c) (hargs : ∀ a ∈ args, '\x00' ∉ a) :
    (execute env name args s).1 = .ok () ∧
      HandsToShell env name args s (c ++ argSuffix args) ∧
      (args = [] → HandsToShell env name args s c) ∧
      appendArgs c args = c ++ argSuffix args := by
  have h := execute_hands env name c args s hname hcmd hstr
  have hn : '\x00' ∉ c ++ argSuffix args := by
    simp [hc, nul_not_mem_argSuffix args hargs]
  rw [cStr_eq_self _ hn] at h
  refine ⟨h.1, h.2, ?_, appendArgs_eq c args⟩
  intro ha
  have h2 := h.2
  subst ha
  simpa [argSuffix] using h2

/-- C1, witness: with `make -j4` stored under `build`, `execute("build",
["clean"])` hands `make -j4 'clean'` to the shell. -/
theorem execute_command_line_witness :
    HandsToShell quietEnv "build".toList ["clean".toList] (freshSys buildStore)
      "make -j4 'clean'".toList := by
  have h := (execute_command_line quietEnv "build".toList "make -j4".toList
    ["clean".toList] (freshSys buildStore) (by decide) (by decide) rfl
    (by decide) (by decide)).2.1
  have e : "make -j4".toList ++ argSuffix ["clean".toList] = "make -j4 'clean'".toList := by
    simp only [argSuffix, escapeShellArg_eq]
    decide
  rw [e] at h
  exact h

/-- C1, counterexample: the entry `x` of `nulStore` has the stored command
`echo a␀b`; with no arguments the shell is handed `echo a`, not the stored
command. -/
theorem execute_command_line_nul :
    (nulStore.member "x".toList).member "cmd".toList = .str "echo a\x00b".toList ∧
      HandsToShell quietEnv "x".toList [] (freshSys nulStore) "echo a".toList ∧
      ¬ HandsToShell quietEnv "x".toList [] (freshSys nulStore)
        ("echo a\x00b".toList ++ argSuffix []) := by
  refine ⟨rfl, ?_, ?_⟩
  · unfold HandsToShell; decide
  · unfold HandsToShell; decide

/-! ## The escaping rule -/

/-- C2: for every argument `s`, `escapeShellArg s` is a single quote, then `s`
with every single quote replaced by the four characters quote, backslash,
quote, quote and every other character kept in place, then a single quote.
The replacement loop is the total function `escapeLoop`, so it ends for every
`s`; `it's` becomes `'it'\''s'`, and the string of two quotes is handled too. -/
theorem escapeShellArg_spec :
    (∀ s : Str, escapeShellArg s = ['\''] ++ replaceQuotes s ++ ['\'']) ∧
      escapeShellArg "it's".toList = "'it'\\''s'".toList ∧
      escapeShellArg "''".toList = "''\\'''\\'''".toList := by
  refine ⟨escapeShellArg_eq, ?_, ?_⟩
  · rw [escapeShellArg_eq]; decide
  · rw [escapeShellArg_eq]; decide

/-- C3: read by the shell's word rules, `escapeShellArg s` is exactly one
word, and the word is `s`; no character of it stands outside quotes
unescaped; `escapeShellArg` is injective; and an argument without NUL gives a
token without NUL, which reaches the shell whole. -/
theorem escapeShellArg_shell_safe :
    (∀ s : Str, shellWords (escapeShellArg s) = some [s]) ∧
      (∀ s : Str, bareChars (escapeShellArg s) false = []) ∧
      (∀ s t : Str, escapeShellArg s = escapeShellArg t → s = t) ∧
      (∀ s : Str, '\x00' ∉ s → cStr (escapeShellArg s) = escapeShellArg s) := by
  refine ⟨shellWords_escapeShellArg, ?_, ?_, ?_⟩
  · intro s
    rw [escapeShellArg_eq]
    simp [bareChars, bareChars_quoted]
  · intro s t h
    have hs := shellWords_escapeShellArg s
    rw [h, shellWords_escapeShellArg t] at hs
    simpa using hs.symm
  · intro s hs
    exact cStr_eq_self _ (nul_not_mem_escapeShellArg s hs)

/-- C3, witness: the token of `a'b c` is read back as the one word `a'b c`. -/
theorem escapeShellArg_shell_safe_witness :
    shellWords (escapeShellArg "a'b c".toList) = some ["a'b c".toList] ∧
      escapeShellArg "a'b c".toList = "'a'\\''b c'".toList :=
  ⟨escapeShellArg_shell_safe.1 _, by rw [escapeShellArg_eq]; decide⟩

/-! ## Exit codes -/

theorem exitOf_fst (r : Result Unit) :
    (exitOf r).1 = if returned r then .code 0 else .code 1 := by
  rcases r with ⟨_ | _, s⟩ <;> simp [exitOf, returned]

theorem returned_of_ok (r : Result Unit) (h : r.1 = .ok ()) : returned r = true := by
  simp [returned, h]

theorem main_subcommand (env : Env) (argv : List Str) (w : World) (p : Parsed) (s : Sys)
    (hcli : env.cli argv = .ok p) (hv : p.showVersion = false)
    (hload : construct env (getConfigPath env) p.verbose w = (.ok (), s)) :
    main env argv w = exitOf (dispatch env p s) := by
  simp [main, hcli, hv, hload]

theorem main_shorthand (env : Env) (prog first : Str) (more : List Str) (w : World)
    (code : Int) (left : List Str) (s : Sys)
    (hcli : env.cli (prog :: first :: more) = .parseError code left)
    (hdash : first.headD '\x00' ≠ '-')
    (hload : construct env (getConfigPath env) false w = (.ok (), s)) :
    main env (prog :: first :: more) w = exitOf (execute env first (left ++ more) s) := by
  simp only [main, hcli, hload]
  rw [if_pos hdash]

theorem add_reserved_cancelled (env : Env) (name cmd desc : Str) (s : Sys)
    (hres : name ∈ RESERVED_NAMES) (hcmd : cmd ≠ [])
    (hno : (readChoice env s.stdin).1 = false) :
    add env name cmd desc false s
      = (.ok (), say .cancelled (confirm env "Continue anyway?".toList
          (say (.warnReserved name) s)).2) := by
  have hname : name ≠ [] := by
    intro h; subst h; revert hres; decide
  have hr : isReservedName name = true := by
    simpa [isReservedName] using hres
  simp [add, hname, hcmd, hr, confirm, say, hno]

theorem remove_declined (env : Env) (name c : Str) (em : Members) (s : Sys)
    (hname : s.data.contains name = true) (hm : s.data.member name = .obj em)
    (hl : lookup "cmd".toList em = some (.str c))
    (hno : (readChoice env s.stdin).1 = false) :
    (remove env name false s).1 = .ok () := by
  have hq : (confirm env "Are you sure?".toList (say (.askDelete name c) s)).1 = false := hno
  simp only [remove, hname, hm, hl, hq, Bool.not_true, Bool.not_false, Bool.false_eq_true,
    if_false, if_true]

theorem importFrom_declined (env : Env) (filename text : Str) (j : Json) (s : Sys)
    (hfile : s.files (cStr filename) = some text) (hparse : env.parse text = some j)
    (hno : (readChoice env s.stdin).1 = false) :
    (importFrom env filename false s).1 = .ok () := by
  have hq : (confirm env "Continue?".toList (say (.askImport j.size filename) s)).1 = false :=
    hno
  simp only [importFrom, hfile, hparse, hq, Bool.not_true, Bool.not_false, Bool.false_eq_true,
    if_false, if_true]

theorem add_declined (env : Env) (name cmd desc : Str) (s : Sys)
    (hname : name ≠ []) (hcmd : cmd ≠ []) (hres : isReservedName name = false)
    (hno : (checkExecutable env (baseCommand cmd)
      (findChar (baseCommand cmd) '/' 0).isSome s).1 = false) :
    (add env name cmd desc false s).1 = .ok () := by
  have he : (name.isEmpty || cmd.isEmpty) = false := by
    cases name with
    | nil => exact absurd rfl hname
    | cons a t =>
      cases cmd with
      | nil => exact absurd rfl hcmd
      | cons b u => rfl
  simp only [add, he, hres, addChecked, afterCheck, hno, Bool.not_true, Bool.not_false,
    Bool.false_eq_true, if_false, if_true]

/-- C4, as the program has it: once the store is loaded, `main` ends with 0
when the operation returns and with 1 when it throws, both for a parsed
subcommand and for the bare `<name>` shorthand.  An operation whose question
is answered with no returns.  `execute` returns whatever status `system`
gives for the stored command, so `run <name>` and the bare `<name>` end with 0
also when the command exits non-zero. -/
theorem main_exit_code (env : Env) (prog name c : Str) (args : List Str) (w : World)
    (s : Sys)
    (hname : s.data.contains name = true)
    (hcmd : (s.data.member name).contains "cmd".toList = true)
    (hstr : (s.data.member name).member "cmd".toList = .str c) :
    (∀ p : Parsed, env.cli (prog :: "run".toList :: name :: args) = .ok p →
        p.showVersion = false → p.sub = .run → p.name = name →
        construct env (getConfigPath env) p.verbose w = (.ok (), s) →
        (main env (prog :: "run".toList :: name :: args) w).1 = .code 0) ∧
      (∀ code left, env.cli (prog :: name :: args) = .parseError code left →
        name.headD '\x00' ≠ '-' →
        construct env (getConfigPath env) false w = (.ok (), s) →
        (main env (prog :: name :: args) w).1 = .code 0) ∧
      (∀ argv p, env.cli argv = .ok p → p.showVersion = false →
        construct env (getConfigPath env) p.verbose w = (.ok (), s) →
        (main env argv w).1 = if returned (dispatch env p s) then .code 0 else .code 1) ∧
      (∀ first more code left, env.cli (prog :: first :: more) = .parseError code left →
        first.headD '\x00' ≠ '-' →
        construct env (getConfigPath env) false w = (.ok (), s) →
        (main env (prog :: first :: more) w).1 =
          if returned (execute env first (left ++ more) s) then .code 0 else .code 1) ∧
      (∀ em text, s.data.member name = .obj em → lookup "cmd".toList em = some (.str text) →
        (readChoice env s.stdin).1 = false → returned (remove env name false s) = true) ∧
      (∀ filename text j, s.files (cStr filename) = some text → env.parse text = some j →
        (readChoice env s.stdin).1 = false →
        returned (importFrom env filename false s) = true) ∧
      (∀ key cmd desc, key ≠ [] → cmd ≠ [] → isReservedName key = false →
        (checkExecutable env (baseCommand cmd)
          (findChar (baseCommand cmd) '/' 0).isSome s).1 = false →
        returned (add env key cmd desc false s) = true) ∧
      (∀ key cmd desc, key ∈ RESERVED_NAMES → cmd ≠ [] →
        (readChoice env s.stdin).1 = false →
        returned (add env key cmd desc false s) = true) := by
  refine ⟨?_, ?_, ?_, ?_, ?_, ?_, ?_, ?_⟩
  · intro p hcli hv hsub hn hload
    rw [main_subcommand env _ w p s hcli hv hload, exitOf_fst]
    have h := (execute_hands env name c p.execArgs s hname hcmd hstr).1
    have hd : dispatch env p s = execute env name p.execArgs s := by
      simp [dispatch, hsub, hn]
    rw [hd, returned_of_ok _ h]
    rfl
  · intro code left hcli hdash hload
    rw [main_shorthand env prog name args w code left s hcli hdash hload, exitOf_fst]
    have h := (execute_hands env name c (left ++ args) s hname hcmd hstr).1
    rw [returned_of_ok _ h]
    rfl
  · intro argv p hcli hv hload
    rw [main_subcommand env argv w p s hcli hv hload, exitOf_fst]
  · intro first more code left hcli hdash hload
    rw [main_shorthand env prog first more w code left s hcli hdash hload, exitOf_fst]
  · intro em text hm hl hno
    exact returned_of_ok _ (remove_declined env name text em s hname hm hl hno)
  · intro filename text j hfile hparse hno
    exact returned_of_ok _ (importFrom_declined env filename text j s hfile hparse hno)
  · intro key cmd desc hk hc hres hno
    exact returned_of_ok _ (add_declined env key cmd desc s hk hc hres hno)
  · intro key cmd desc hres hc hno
    rw [add_reserved_cancelled env key cmd desc s hres hc hno]
    rfl

/-- C4, witness: with `false` stored under `x`, `om run x` and `om x` end with
exit code 0. -/
theorem main_exit_code_witness :
    (main failEnv ["om".toList, "run".toList, "x".toList] failWorld).1 = .code 0 ∧
      (main failEnv ["om".toList, "x".toList] failWorld).1 = .code 0 := by
  have h := main_exit_code failEnv "om".toList "x".toList "false".toList [] failWorld
    (construct failEnv (getConfigPath failEnv) false failWorld).2
    (by decide) (by decide) rfl
  exact ⟨h.1 runX rfl rfl rfl rfl rfl, h.2.1 109 [] rfl (by decide) rfl⟩

/-- C4, counterexample: the entry `x` runs `false`, for which `system` returns
the non-zero status 256; `om run x` and `om x` both end with exit code 0, not
1. -/
theorem main_exit_code_failing_command :
    failEnv.system "false".toList = 256 ∧
      (main failEnv ["om".toList, "run".toList, "x".toList] failWorld).1 = .code 0 ∧
      (main failEnv ["om".toList, "x".toList] failWorld).1 = .code 0 ∧
      (main failEnv ["om".toList, "run".toList, "x".toList] failWorld).1 ≠ .code 1 ∧
      (main failEnv ["om".toList, "x".toList] failWorld).1 ≠ .code 1 := by
  refine ⟨by decide, by decide, by decide, by decide, by decide⟩

/-! ## Names that are not in the store -/

/-- C7: for a name that is not a key of the store, `remove` (with or without
`force`), `info` and `edit` throw `Program '<name>' not found`, `getPath`
throws the same and `getDescription` throws `No description for '<name>'`,
each a `ProgramError`; the state after the throw is the state before, so
nothing was asked, changed or saved. -/
theorem absent_name_not_found (env : Env) (name : Str) (s : Sys)
    (habsent : s.data.contains name = false) :
    (∀ force, remove env name force s = (.error (notFound name), s)) ∧
      info name s = (.error (notFound name), s) ∧
      edit env name s = (.error (notFound name), s) ∧
      getPath name s = .error (notFound name) ∧
      getDescription name s =
        .error (.program ("No description for '".toList ++ name ++ "'".toList)) ∧
      notFound name = .program ("Program '".toList ++ name ++ "' not found".toList) := by
  refine ⟨?_, ?_, ?_, ?_, ?_, rfl⟩
  · intro force
    simp [remove, habsent]
  · simp [info, habsent]
  · simp [edit, habsent]
  · simp [getPath, habsent]
  · simp [getDescription, habsent]

/-- C7, witness: `ghost` is not a key of the store that holds only `build`. -/
theorem absent_name_not_found_witness :
    remove quietEnv "ghost".toList false (freshSys buildStore)
        = (.error (notFound "ghost".toList), freshSys buildStore) ∧
      getPath "ghost".toList (freshSys buildStore) = .error (notFound "ghost".toList) :=
  have h := absent_name_not_found quietEnv "ghost".toList (freshSys buildStore) (by decide)
  ⟨h.1 false, h.2.2.2.1⟩

/-! ## Reserved names -/

/-- C9: for a reserved name and a non-empty command, `add` without `force`
whose question is answered with no returns without an error; the store in
memory and the files are as before and no file was opened for writing. -/
theorem add_reserved_declined (env : Env) (name cmd desc : Str) (s : Sys)
    (hres : name ∈ RESERVED_NAMES) (hcmd : cmd ≠ [])
    (hno : (readChoice env s.stdin).1 = false) :
    (add env name cmd desc false s).1 = .ok () ∧
      (add env name cmd desc false s).2.data = s.data ∧
      (add env name cmd desc false s).2.files = s.files ∧
      written (add env name cmd desc false s).2.trace = written s.trace ∧
      printed (add env name cmd desc false s).2.trace = printed s.trace ++
        [.warnReserved name, .prompt "Continue anyway?".toList, .cancelled] := by
  rw [add_reserved_cancelled env name cmd desc s hres hcmd hno]
  simp [confirm, say, written_append, printed_append, written, printed]

/-- C9, witness: `add("list", "ls -la", "", false)` with the answer `n`. -/
theorem add_reserved_declined_witness :
    (add quietEnv "list".toList "ls -la".toList [] false
        { freshSys buildStore with stdin := "n\n".toList }).2.data = buildStore :=
  (add_reserved_declined quietEnv "list".toList "ls -la".toList []
    { freshSys buildStore with stdin := "n\n".toList }
    (by decide) (by decide) (by decide)).2.1

/-! ## Search -/

theorem findStr_isSome_iff (hay needle : Str) :
    (findStr hay needle).isSome = true ↔ needle <:+: hay := by
  induction hay with
  | nil =>
    cases needle with
    | nil => simp [findStr]
    | cons c cs => simp [findStr, List.isPrefixOf]
  | cons h t ih =>
    rw [List.infix_cons_iff, ← ih, ← List.isPrefixOf_iff_prefix]
    by_cases hp : needle.isPrefixOf (h :: t) = true
    · simp [findStr, hp]
    · simp [findStr, hp]

theorem letterPairs_facts :
    ∀ p ∈ letterPairs, lowerLetter p.1 = p.2 ∧ lowerLetter p.2 = p.2 ∧
      65 ≤ p.1.toNat ∧ p.1.toNat ≤ 90 := by
  decide

theorem lowerIn_of_not_capital (table : List (Char × Char)) (c : Char)
    (h : ∀ p ∈ table, p.1 ≠ c) : lowerIn table c = c := by
  induction table with
  | nil => rfl
  | cons p rest ih =>
    obtain ⟨capital, small⟩ := p
    have h1 : c ≠ capital := fun e => h (capital, small) (by simp) e.symm
    simp only [lowerIn, h1, if_false]
    exact ih (fun q hq => h q (by simp [hq]))

theorem tolower_ofNat (n : Nat) (h1 : 65 ≤ n) (h2 : n ≤ 90) :
    tolower (Char.ofNat n) = lowerLetter (Char.ofNat n) := by
  interval_cases n <;> decide

theorem tolower_eq_lowerLetter (c : Char) : tolower c = lowerLetter c := by
  by_cases h : 65 ≤ c.toNat ∧ c.toNat ≤ 90
  · have hk := tolower_ofNat c.toNat h.1 h.2
    rwa [Char.ofNat_toNat] at hk
  · have hl : lowerLetter c = c := by
      apply lowerIn_of_not_capital
      intro p hp e
      have hr := letterPairs_facts p hp
      rw [e] at hr
      exact h ⟨hr.2.2.1, hr.2.2.2⟩
    have ht : tolower c = c := by
      unfold tolower
      exact if_neg h
    rw [ht, hl]

theorem toLowerCase_eq_lowered (text : Str) : toLowerCase text = lowered text := by
  unfold toLowerCase lowered
  exact List.map_congr_left (fun c _ => tolower_eq_lowerLetter c)

theorem searchMatch_iff (query key : Str) (val : Json) :
    searchMatch (toLowerCase query) key (fieldText val "desc".toList)
        (fieldText val "cmd".toList) = true ↔ Matches query key val := by
  simp only [searchMatch, Matches, Bool.or_eq_true, findStr_isSome_iff, or_assoc,
    toLowerCase_eq_lowered]

theorem fieldOrEmpty_eq (val : Json) (key : Str)
    (hkey : key = "cmd".toList ∨ key = "desc".toList) (hval : StringFields val) :
    fieldOrEmpty val key = .ok (fieldText val key) := by
  unfold fieldOrEmpty fieldText
  by_cases hc : val.contains key = true
  · obtain ⟨t, ht⟩ := hval key hkey hc
    simp [hc, ht, Json.getString]
  · have hm : val.member key = .null := by
      cases val with
      | obj m =>
        cases hl : lookup key m with
        | none => simp [Json.member, hl]
        | some v => simp [Json.contains, hl] at hc
      | _ => rfl
    simp [hc, hm]

theorem hits_cons_of_matches (query key : Str) (val : Json) (rest : Members)
    (h : Matches query key val) :
    hits query ((key, val) :: rest) = (key, val) :: hits query rest := by
  unfold hits
  rw [List.filter_cons]
  exact if_pos (decide_eq_true h)

theorem hits_cons_of_not_matches (query key : Str) (val : Json) (rest : Members)
    (h : ¬ Matches query key val) :
    hits query ((key, val) :: rest) = hits query rest := by
  unfold hits
  rw [List.filter_cons]
  exact if_neg (by simpa using h)

theorem searchLoop_eq (query : Str) (m : Members) (found : Bool) (s : Sys)
    (hfields : ∀ p ∈ m, StringFields p.2) :
    searchLoop (toLowerCase query) m found s =
      (.ok (found || !(hits query m).isEmpty),
        { s with trace := (s.trace ++ hitLines s.verbose (hits query m)) }) := by
  induction m generalizing found s with
  | nil => simp [searchLoop, hits, hitLines]
  | cons p rest ih =>
    obtain ⟨key, val⟩ := p
    have hval : StringFields val := hfields (key, val) (by simp)
    have hrest : ∀ q ∈ rest, StringFields q.2 := fun q hq => hfields q (by simp [hq])
    have hd := fieldOrEmpty_eq val "desc".toList (Or.inr rfl) hval
    have hc := fieldOrEmpty_eq val "cmd".toList (Or.inl rfl) hval
    simp only [searchLoop, hd, hc]
    by_cases hm : searchMatch (toLowerCase query) key (fieldText val "desc".toList)
        (fieldText val "cmd".toList) = true
    · have hh := hits_cons_of_matches query key val rest ((searchMatch_iff query key val).mp hm)
      rw [if_pos hm, ih _ _ hrest, hh]
      by_cases hv : s.verbose = true <;> simp [say, hitLines, hv]
    · have hh := hits_cons_of_not_matches query key val rest
        (fun e => hm ((searchMatch_iff query key val).mpr e))
      rw [if_neg hm, ih _ _ hrest, hh]

theorem search_eq (query : Str) (s : Sys) (hfields : ∀ p ∈ s.data.items, StringFields p.2) :
    search query s =
      (.ok (), { s with trace := (s.trace ++ [.out (.searchHeader query)] ++
        hitLines s.verbose (hits query s.data.items) ++
        (if (hits query s.data.items).isEmpty then [.out .noMatches] else [])) }) := by
  have h := searchLoop_eq query s.data.items false (say (.searchHeader query) s) hfields
  simp only [search, h]
  by_cases he : (hits query s.data.items).isEmpty = true <;> simp [say, he]

theorem hits_empty_query (m : Members) : hits [] m = m := by
  have h : ∀ p : Str × Json, Matches [] p.1 p.2 := by
    intro p
    exact Or.inl (by simp [lowered])
  exact List.filter_eq_self.mpr (fun p _ => decide_eq_true (h p))

theorem hits_congr (query other : Str) (m : Members) (h : lowered other = lowered query) :
    hits other m = hits query m := by
  unfold hits
  apply List.filter_congr
  intro p _
  simp only [Matches, h]

theorem lowerLetter_sameLetter (x y : Char) (h : SameLetter x y) :
    lowerLetter x = lowerLetter y := by
  rcases h with h | h | h
  · rw [h]
  · have hp := letterPairs_facts (x, y) h
    rw [hp.1, hp.2.1]
  · have hp := letterPairs_facts (y, x) h
    rw [hp.1, hp.2.1]

theorem lowered_caseVariant (a b : Str) (h : CaseVariant a b) : lowered a = lowered b := by
  induction h with
  | nil => rfl
  | cons hxy _ ih =>
    simp only [lowered, List.map_cons] at ih ⊢
    rw [lowerLetter_sameLetter _ _ hxy, ih]

/-- C8, as the program has it: on a store whose entries follow the schema (a
`cmd` or `desc` that is present is a string), `search` returns and prints,
after the header, exactly the entries for which the query with its letters
`A`–`Z` lower-cased is a substring of the name, description or command
lower-cased the same way, a missing field counting as empty, in the order of
the store (and `No matches found.` when there is none).  The lower-casing of
the program is this one, character by character.  A query that differs from
`query` only in the case of letters `A`–`Z`, or that has the same lower-cased
text, selects the same entries, and the empty query selects every entry. -/
theorem search_reports (query : Str) (s : Sys)
    (hfields : ∀ p ∈ s.data.items, StringFields p.2) :
    search query s =
        (.ok (), { s with trace := (s.trace ++ [.out (.searchHeader query)] ++
          hitLines s.verbose (hits query s.data.items) ++
          (if (hits query s.data.items).isEmpty then [.out .noMatches] else [])) }) ∧
      (∀ p, p ∈ hits query s.data.items ↔ p ∈ s.data.items ∧ Matches query p.1 p.2) ∧
      (∀ other, CaseVariant other query →
        search other s =
          (.ok (), { s with trace := (s.trace ++ [.out (.searchHeader other)] ++
            hitLines s.verbose (hits query s.data.items) ++
            (if (hits query s.data.items).isEmpty then [.out .noMatches] else [])) })) ∧
      (∀ other, lowered other = lowered query →
        hits other s.data.items = hits query s.data.items) ∧
      hits [] s.data.items = s.data.items ∧
      (∀ text, toLowerCase text = lowered text) := by
  refine ⟨search_eq query s hfields, ?_, ?_, ?_, hits_empty_query _, toLowerCase_eq_lowered⟩
  · intro p
    simp only [hits, List.mem_filter, decide_eq_true_eq]
  · intro other ho
    rw [search_eq other s hfields,
      hits_congr query other s.data.items (lowered_caseVariant other query ho)]
  · intro other ho
    exact hits_congr query other s.data.items ho

theorem stringFields_entry (cmd desc : Str) : StringFields (entry cmd desc) := by
  intro key hkey _
  rcases hkey with h | h
  · subst h; exact ⟨cmd, rfl⟩
  · subst h; exact ⟨desc, rfl⟩

theorem stringFields_single (key cmd desc : Str) (p : Str × Json)
    (hp : p ∈ (Json.obj [(key, entry cmd desc)]).items) : StringFields p.2 := by
  have hp2 : p = (key, entry cmd desc) := by
    simpa [Json.items] using hp
  subst hp2
  exact stringFields_entry _ _

/-- C8, witness: in the store that holds `build` with the command `make -j4`,
the query `MAKE` selects `build`, and so does its case variant `Make`. -/
theorem search_reports_witness :
    printed (search "MAKE".toList (freshSys buildStore)).2.trace =
        [.searchHeader "MAKE".toList, .entryLine "build".toList "build project".toList] ∧
      printed (search "Make".toList (freshSys buildStore)).2.trace =
        [.searchHeader "Make".toList, .entryLine "build".toList "build project".toList] := by
  have h := search_reports "MAKE".toList (freshSys buildStore)
    (fun p hp => stringFields_single _ _ _ p hp)
  have hv : CaseVariant "Make".toList "MAKE".toList :=
    .cons (Or.inl rfl) (.cons (Or.inr (Or.inr (by decide)))
      (.cons (Or.inr (Or.inr (by decide))) (.cons (Or.inr (Or.inr (by decide))) .nil)))
  rw [h.1, h.2.2.1 _ hv]
  exact ⟨by decide, by decide⟩

/-- C8, counterexample: the store has the one entry `café` and the query is
its capital form `CAFÉ` (both in UTF-8).  Lower-cased, the query is a
substring of the lower-cased name, and the query `café` finds the entry; the
program's lower-casing leaves the bytes of `É` as they are, so for `CAFÉ`
`search` prints `No matches found.`: for this case variant the result is not
the same. -/
theorem search_misses_capital_accent :
    printed (search cafe (freshSys cafeStore)).2.trace =
        [.searchHeader cafe, .entryLine cafe []] ∧
      printed (search cafeCapital (freshSys cafeStore)).2.trace =
        [.searchHeader cafeCapital, .noMatches] ∧
      toLowerCase cafeCapital = ['c', 'a', 'f', '\xc3', '\x89'] ∧
      toLowerCase cafe = cafe ∧
      printed (search cafeCapital (freshSys cafeStore)).2.trace ≠
        [.searchHeader cafeCapital, .entryLine cafe []] := by
  refine ⟨by decide, by decide, by decide, by decide, by decide⟩

/-! ## Import and export -/

theorem lookup_insert_self (k : Str) (v : Json) (m : Members) :
    lookup k (insert k v m) = some v := by
  induction m with
  | nil => simp [insert, lookup]
  | cons p t ih =>
    obtain ⟨a, b⟩ := p
    by_cases h1 : k < a
    · simp [insert, h1, lookup]
    · by_cases h2 : k = a
      · simp [insert, h1, h2, lookup]
      · simp [insert, h1, h2, lookup, ih]

theorem lookup_insert_ne (k x : Str) (v : Json) (m : Members) (hx : x ≠ k) :
    lookup x (insert k v m) = lookup x m := by
  induction m with
  | nil => simp [insert, lookup, hx]
  | cons p t ih =>
    obtain ⟨a, b⟩ := p
    by_cases h1 : k < a
    · simp [insert, h1, lookup, hx]
    · by_cases h2 : k = a
      · subst h2
        simp [insert, h1, lookup, hx]
      · by_cases h3 : x = a
        · simp [insert, h1, h2, lookup, h3]
        · simp [insert, h1, h2, lookup, h3, ih]

theorem lookup_eq_none_of_not_mem (x : Str) (m : Members) (h : x ∉ m.map Prod.fst) :
    lookup x m = none := by
  induction m with
  | nil => rfl
  | cons p t ih =>
    obtain ⟨a, b⟩ := p
    simp only [List.map_cons, List.mem_cons, not_or] at h
    simp [lookup, h.1, ih h.2]

theorem lookup_mergeAll (x : Str) (S I : Members) (hI : (I.map Prod.fst).Nodup) :
    lookup x (mergeAll S I) = (lookup x I).or (lookup x S) := by
  induction I generalizing S with
  | nil => simp [mergeAll, lookup]
  | cons p rest ih =>
    obtain ⟨k, v⟩ := p
    simp only [List.map_cons, List.nodup_cons] at hI
    have h := ih (insert k v S) hI.2
    simp only [mergeAll, List.foldl_cons] at h ⊢
    rw [h]
    by_cases hx : x = k
    · subst hx
      simp [lookup, lookup_eq_none_of_not_mem _ _ hI.1, lookup_insert_self]
    · simp [lookup, hx, lookup_insert_ne _ _ _ _ hx]

theorem countNew_cons (S rest : Members) (k : Str) (v : Json) :
    countNew S ((k, v) :: rest) = (if (lookup k S).isSome then 0 else 1) + countNew S rest := by
  cases hl : lookup k S with
  | none => simp [countNew, List.filter_cons, hl]; omega
  | some w => simp [countNew, List.filter_cons, hl]

theorem countOld_cons (S rest : Members) (k : Str) (v : Json) :
    countOld S ((k, v) :: rest) = (if (lookup k S).isSome then 1 else 0) + countOld S rest := by
  cases hl : lookup k S with
  | none => simp [countOld, List.filter_cons, hl]
  | some w => simp [countOld, List.filter_cons, hl]; omega

theorem mergeLoop_eq (S I : Members) (added updated : Nat) (hI : (I.map Prod.fst).Nodup) :
    mergeLoop I (.obj S) added updated =
      (.ok (added + countNew S I, updated + countOld S I), .obj (mergeAll S I)) := by
  induction I generalizing S added updated with
  | nil => simp [mergeLoop, countNew, countOld, mergeAll]
  | cons p rest ih =>
    obtain ⟨k, v⟩ := p
    simp only [List.map_cons, List.nodup_cons] at hI
    have hsame : ∀ q ∈ rest, lookup q.1 (insert k v S) = lookup q.1 S := by
      intro q hq
      apply lookup_insert_ne
      intro e
      exact hI.1 (e ▸ List.mem_map_of_mem Prod.fst hq)
    have hnew : countNew (insert k v S) rest = countNew S rest := by
      unfold countNew
      congr 1
      apply List.filter_congr
      intro q hq
      rw [hsame q hq]
    have hold : countOld (insert k v S) rest = countOld S rest := by
      unfold countOld
      congr 1
      apply List.filter_congr
      intro q hq
      rw [hsame q hq]
    simp only [mergeLoop, Json.assign, Json.contains]
    rw [ih (insert k v S) _ _ hI.2, hnew, hold, countNew_cons, countOld_cons]
    have hm : mergeAll (insert k v S) rest = mergeAll S ((k, v) :: rest) := rfl
    rw [hm]
    by_cases hk : (lookup k S).isSome = true
    · simp only [hk, if_true]
      rw [Nat.zero_add, Nat.add_assoc, Nat.add_comm 1]
    · simp only [hk, Bool.false_eq_true, if_false]
      rw [Nat.zero_add, Nat.add_assoc]

theorem countNew_add_countOld (S I : Members) : countNew S I + countOld S I = I.length := by
  induction I with
  | nil => rfl
  | cons p rest ih =>
    obtain ⟨k, v⟩ := p
    rw [countNew_cons, countOld_cons]
    cases hl : lookup k S with
    | none => simp; omega
    | some w => simp; omega

theorem keysSorted_append_lt (pre rest : Members) (k : Str) (v : Json)
    (h : KeysSorted (pre ++ (k, v) :: rest)) : ∀ p ∈ pre, p.1 < k := by
  induction pre with
  | nil => simp
  | cons q t ih =>
    obtain ⟨a, b⟩ := q
    simp only [List.cons_append, KeysSorted] at h
    intro p hp
    rcases List.mem_cons.mp hp with e | e
    · subst e
      exact h.1 (k, v) (by simp)
    · exact ih h.2 p e

theorem insert_last (pre : Members) (k : Str) (v : Json) (h : ∀ p ∈ pre, p.1 < k) :
    insert k v pre = pre ++ [(k, v)] := by
  induction pre with
  | nil => rfl
  | cons q t ih =>
    obtain ⟨a, b⟩ := q
    have hak : a < k := h (a, b) (by simp)
    have h1 : ¬ k < a := lt_asymm hak
    have h2 : k ≠ a := fun e => (lt_irrefl a) (e ▸ hak)
    simp only [insert, h1, h2, if_false, List.cons_append]
    rw [ih (fun p hp => h p (by simp [hp]))]

theorem mergeAll_sorted (pre rest : Members) (h : KeysSorted (pre ++ rest)) :
    mergeAll pre rest = pre ++ rest := by
  induction rest generalizing pre with
  | nil => simp [mergeAll]
  | cons q t ih =>
    obtain ⟨k, v⟩ := q
    have hlast := insert_last pre k v (keysSorted_append_lt pre t k v h)
    have hstep : mergeAll pre ((k, v) :: t) = mergeAll (insert k v pre) t := rfl
    rw [hstep, hlast, ih (pre ++ [(k, v)]) (by simpa using h)]
    simp

theorem keysSorted_nodup (m : Members) (h : KeysSorted m) : (m.map Prod.fst).Nodup := by
  induction m with
  | nil => simp
  | cons q t ih =>
    obtain ⟨k, v⟩ := q
    simp only [KeysSorted] at h
    simp only [List.map_cons, List.nodup_cons]
    refine ⟨?_, ih h.2⟩
    intro hk
    obtain ⟨p, hp, e⟩ := List.mem_map.mp hk
    have := h.1 p hp
    rw [e] at this
    exact lt_irrefl k this

theorem countNew_nil (I : Members) : countNew [] I = I.length := by
  induction I with
  | nil => rfl
  | cons p t ih =>
    obtain ⟨k, v⟩ := p
    rw [countNew_cons, ih]
    simp [lookup]
    omega

theorem countOld_nil (I : Members) : countOld [] I = 0 := by
  induction I with
  | nil => rfl
  | cons p t ih =>
    obtain ⟨k, v⟩ := p
    rw [countOld_cons, ih]
    simp [lookup]

theorem save_returns (env : Env) (s : Sys) (text : Str)
    (hw : env.canWrite s.configPath = true) (hd : env.dump s.data = some text) :
    (save env s).1 = .ok () ∧ (save env s).2.data = s.data ∧
      printed (save env s).2.trace =
        printed s.trace ++ (if s.verbose then [.configSaved s.configPath] else []) := by
  by_cases hv : s.verbose = true <;>
    simp [save, hw, hd, openForWriting, say, hv, printed_append, printed]

theorem importFrom_force (env : Env) (filename text : Str) (S I : Members) (s : Sys)
    (hS : s.data = .obj S) (hfile : s.files (cStr filename) = some text)
    (hparse : env.parse text = some (.obj I)) (hI : (I.map Prod.fst).Nodup) :
    importFrom env filename true s =
      match save env { s with data := .obj (mergeAll S I) } with
      | (.error e, t) => (.error e, t)
      | (.ok (), t) => (.ok (), say (.imported (countNew S I) (countOld S I)) t) := by
  have hm := mergeLoop_eq S I 0 0 hI
  simp only [Nat.zero_add] at hm
  simp [importFrom, hfile, hparse, importMerge, Json.items, hS, hm]

theorem save_data (env : Env) (s : Sys) : (save env s).2.data = s.data := by
  unfold save
  by_cases hw : env.canWrite s.configPath = true
  · cases hd : env.dump s.data with
    | none => simp [hw, openForWriting, hd]
    | some text =>
      by_cases hv : s.verbose = true <;> simp [hw, openForWriting, hd, hv, say]
  · simp [hw]

theorem importFrom_force_data (env : Env) (filename text : Str) (S I : Members) (s : Sys)
    (hS : s.data = .obj S) (hfile : s.files (cStr filename) = some text)
    (hparse : env.parse text = some (.obj I)) (hI : (I.map Prod.fst).Nodup) :
    (importFrom env filename true s).2.data = .obj (mergeAll S I) := by
  rw [importFrom_force env filename text S I s hS hfile hparse hI]
  have h := save_data env { s with data := .obj (mergeAll S I) }
  cases hsave : save env { s with data := .obj (mergeAll S I) } with
  | mk r t =>
    rw [hsave] at h
    cases r with
    | error e => exact h
    | ok u => exact h

theorem importFrom_force_report (env : Env) (filename text : Str) (S I : Members) (s : Sys)
    (hS : s.data = .obj S) (hfile : s.files (cStr filename) = some text)
    (hparse : env.parse text = some (.obj I)) (hI : (I.map Prod.fst).Nodup)
    (hw : env.canWrite s.configPath = true)
    (hd : (env.dump (.obj (mergeAll S I))).isSome = true) :
    (importFrom env filename true s).1 = .ok () ∧
      printed (importFrom env filename true s).2.trace =
        printed s.trace ++ (if s.verbose then [.configSaved s.configPath] else []) ++
          [.imported (countNew S I) (countOld S I)] := by
  rw [importFrom_force env filename text S I s hS hfile hparse hI]
  obtain ⟨out, hout⟩ := Option.isSome_iff_exists.mp hd
  have h := save_returns env { s with data := .obj (mergeAll S I) } out hw hout
  cases hsave : save env { s with data := .obj (mergeAll S I) } with
  | mk r t =>
    rw [hsave] at h
    cases r with
    | error e => simp at h
    | ok u =>
      refine ⟨rfl, ?_⟩
      simp only [say, printed_append, printed]
      rw [h.2.2]

theorem import_data_and_report (env : Env) (filename text : Str) (S I : Members) (s : Sys)
    (hS : s.data = .obj S) (hfile : s.files (cStr filename) = some text)
    (hparse : env.parse text = some (.obj I)) (hI : (I.map Prod.fst).Nodup)
    (hw : env.canWrite s.configPath = true)
    (hd : (env.dump (.obj (mergeAll S I))).isSome = true) :
    (importFrom env filename true s).2.data = .obj (mergeAll S I) ∧
      (importFrom env filename true s).1 = .ok () ∧
      printed (importFrom env filename true s).2.trace =
        printed s.trace ++ (if s.verbose then [.configSaved s.configPath] else []) ++
          [.imported (countNew S I) (countOld S I)] :=
  ⟨importFrom_force_data env filename text S I s hS hfile hparse hI,
    importFrom_force_report env filename text S I s hS hfile hparse hI hw hd⟩

/-- C6: `importFrom` with `force` set, on a store `S` and a file that parses
to the mapping `I`, leaves the store that agrees with `I` on every key of `I`
and with `S` on every other key.  When the save succeeds it returns and
reports, as `new`, the number of keys of `I` that `S` does not have and, as
`updated`, the number of keys of `I` that `S` has; the two add up to the
number of entries of `I`. -/
theorem import_merges (env : Env) (filename text : Str) (S I : Members) (s : Sys)
    (hS : s.data = .obj S) (hfile : s.files (cStr filename) = some text)
    (hparse : env.parse text = some (.obj I)) (hI : KeysSorted I) :
    (importFrom env filename true s).2.data = .obj (mergeAll S I) ∧
      (∀ k v, lookup k I = some v → lookup k (mergeAll S I) = some v) ∧
      (∀ k, lookup k I = none → lookup k (mergeAll S I) = lookup k S) ∧
      countNew S I + countOld S I = I.length ∧
      (env.canWrite s.configPath = true →
        (env.dump (.obj (mergeAll S I))).isSome = true →
        (importFrom env filename true s).1 = .ok () ∧
          printed (importFrom env filename true s).2.trace =
            printed s.trace ++ (if s.verbose then [.configSaved s.configPath] else []) ++
              [.imported (countNew S I) (countOld S I)]) := by
  have hn := keysSorted_nodup I hI
  refine ⟨importFrom_force_data env filename text S I s hS hfile hparse hn, ?_, ?_,
    countNew_add_countOld S I, ?_⟩
  · intro k v hk
    rw [lookup_mergeAll k S I hn, hk]
    rfl
  · intro k hk
    rw [lookup_mergeAll k S I hn, hk]
    rfl
  · intro hw hd
    exact importFrom_force_report env filename text S I s hS hfile hparse hn hw hd

/-- C6, witness: importing the mapping with the one entry `a` into a store
that already contains `a` reports 0 new, 1 updated. -/
theorem import_merges_witness :
    printed (importFrom codecEnv "in.json".toList true (sysWithFile storeA "A".toList)).2.trace
      = [.imported 0 1] := by
  have h := (import_merges codecEnv "in.json".toList "A".toList
    [("a".toList, entry "true".toList "old".toList)] incomingA
    (sysWithFile storeA "A".toList) rfl (by decide) rfl
    (by simp [incomingA, KeysSorted])).2.2.2.2 (by decide) (by decide)
  rw [h.2]
  decide

theorem exportTo_writes (env : Env) (path text : Str) (s : Sys)
    (hw : env.canWrite (cStr path) = true) (hdump : env.dump s.data = some text) :
    (exportTo env path s).1 = .ok () ∧ (exportTo env path s).2.data = s.data ∧
      (exportTo env path s).2.files (cStr path) = some text ∧
      printed (exportTo env path s).2.trace = printed s.trace ++ [.exported s.data.size path] := by
  simp [exportTo, hw, hdump, openForWriting, say, writeFile, printed_append, printed]

/-- C5: let `S` be a store (an object whose keys increase), let the path and
the importer's config file be writable and let the JSON codec read back the
text it writes for `S`.  Then `exportTo(path)` on `S` returns and leaves that
text in the file, and `importFrom(path, force = true)` by a manager with the
empty store returns, leaves a store equal to `S`, every name with its value,
and reports `|S|` new and 0 updated. -/
theorem export_import_roundtrip (env : Env) (path text : Str) (S : Members) (a : Sys)
    (cfg : Str) (verb : Bool)
    (hS : a.data = .obj S) (hsorted : KeysSorted S)
    (hw : env.canWrite (cStr path) = true) (hcfg : env.canWrite cfg = true)
    (hdump : env.dump (.obj S) = some text) (hparse : env.parse text = some (.obj S)) :
    (exportTo env path a).1 = .ok () ∧
      (exportTo env path a).2.files (cStr path) = some text ∧
      (importFrom env path true (emptyManager (exportTo env path a).2 cfg verb)).1 = .ok () ∧
      (importFrom env path true (emptyManager (exportTo env path a).2 cfg verb)).2.data
        = a.data ∧
      printed (importFrom env path true (emptyManager (exportTo env path a).2 cfg verb)).2.trace
        = printed (exportTo env path a).2.trace ++
          (if verb then [.configSaved cfg] else []) ++ [.imported S.length 0] := by
  have hex := exportTo_writes env path text a hw (by rw [hS]; exact hdump)
  have hmerge : mergeAll [] S = S := by
    have := mergeAll_sorted [] S (by simpa using hsorted)
    simpa using this
  have him := import_data_and_report env path text [] S
    (emptyManager (exportTo env path a).2 cfg verb) rfl hex.2.2.1 hparse
    (keysSorted_nodup S hsorted) hcfg (by rw [hmerge, hdump]; rfl)
  rw [hmerge, countNew_nil, countOld_nil] at him
  rw [hS]
  exact ⟨hex.1, hex.2.2.1, him.2.1, him.1, him.2.2⟩

/-- C5, witness: the store with the entry `build`, written to `out.json` and
read by a manager with the empty store, is there again. -/
theorem export_import_roundtrip_witness :
    (importFrom codecEnv "out.json".toList true
      (emptyManager (exportTo codecEnv "out.json".toList (freshSys buildStore)).2
        "/tmp/om/programs.json".toList false)).2.data
      = buildStore :=
  (export_import_roundtrip codecEnv "out.json".toList "M".toList
    [("build".toList, entry "make -j4".toList "build project".toList)]
    (freshSys buildStore) "/tmp/om/programs.json".toList false
    rfl (by simp [KeysSorted]) (by decide) (by decide) rfl rfl).2.2.2.1

/-! ## What an insert or update writes -/

theorem commandExists_data (env : Env) (cmd : Str) (s : Sys) :
    (commandExists env cmd s).2.data = s.data := rfl

theorem checkExecutable_data (env : Env) (baseCmd : Str) (isPath : Bool) (s : Sys) :
    (checkExecutable env baseCmd isPath s).2.data = s.data := by
  unfold checkExecutable
  cases isPath with
  | true =>
    by_cases hf : (s.files baseCmd).isNone = true <;> simp [hf, confirm, say]
  | false =>
    have h := commandExists_data env baseCmd s
    cases hce : commandExists env baseCmd s with
    | mk found t =>
      rw [hce] at h
      cases found <;> simp [confirm, say] <;> exact h

theorem assign_member (j d : Json) (k : Str) (v : Json) (h : j.assign k v = .ok d) :
    d.member k = v := by
  cases j with
  | obj m =>
    simp only [Json.assign, Except.ok.injEq] at h
    subst h
    simp [Json.member, lookup_insert_self]
  | null =>
    simp only [Json.assign, Except.ok.injEq] at h
    subst h
    simp [Json.member, lookup]
  | bool b => simp [Json.assign] at h
  | num n => simp [Json.assign] at h
  | str t => simp [Json.assign] at h
  | arr vs => simp [Json.assign] at h

theorem hasBothFields_entry (cmd desc : Str) : HasBothFields (entry cmd desc) :=
  ⟨rfl, rfl⟩

theorem addEntry_data (env : Env) (name cmd desc : Str) (s : Sys) :
    (addEntry env name cmd desc s).2.data = s.data ∨
      s.data.assign name (entry cmd desc) = .ok (addEntry env name cmd desc s).2.data := by
  cases ha : s.data.assign name (entry cmd desc) with
  | error e => left; simp [addEntry, ha]
  | ok d =>
    right
    have hs := save_data env { s with data := d }
    cases hsave : save env { s with data := d } with
    | mk r t =>
      rw [hsave] at hs
      have hd : t.data = d := hs
      cases r with
      | error e => simp [addEntry, ha, hsave, hd]
      | ok u =>
        by_cases hv : t.verbose = true <;> simp [addEntry, ha, hsave, say, hv, hd]

theorem addChecked_data (env : Env) (name cmd desc : Str) (force : Bool) (s : Sys) :
    (addChecked env name cmd desc force s).2.data = s.data ∨
      s.data.assign name (entry cmd desc) = .ok (addChecked env name cmd desc force s).2.data := by
  unfold addChecked
  cases force with
  | true => simpa using addEntry_data env name cmd desc s
  | false =>
    have hc := checkExecutable_data env (baseCommand cmd)
      (findChar (baseCommand cmd) '/' 0).isSome s
    generalize checkExecutable env (baseCommand cmd)
      (findChar (baseCommand cmd) '/' 0).isSome s = r at hc
    obtain ⟨goOn, t⟩ := r
    have h := addEntry_data env name cmd desc t
    simp only [show t.data = s.data from hc] at h
    cases goOn with
    | false => left; simpa [afterCheck, say] using hc
    | true => simpa [afterCheck] using h

theorem add_data (env : Env) (name cmd desc : Str) (force : Bool) (s : Sys) :
    (add env name cmd desc force s).2.data = s.data ∨
      s.data.assign name (entry cmd desc) = .ok (add env name cmd desc force s).2.data := by
  unfold add
  by_cases he : (name.isEmpty || cmd.isEmpty) = true
  · left; simp [he]
  · by_cases hr : isReservedName name = true
    · cases force with
      | true =>
        have h := addChecked_data env name cmd desc true (say (.warnReserved name) s)
        simpa [he, hr] using h
      | false =>
        cases hq : (readChoice env s.stdin).1 with
        | false => left; simp [he, hr, confirm, say, hq]
        | true =>
          have h := addChecked_data env name cmd desc false
            (confirm env "Continue anyway?".toList (say (.warnReserved name) s)).2
          simpa [he, hr, confirm, say, hq] using h
    · have h := addChecked_data env name cmd desc force s
      simpa [he, hr] using h

theorem edit_data (env : Env) (name : Str) (s : Sys) :
    (edit env name s).2.data = s.data ∨
      ∃ cmd desc, s.data.assign name (entry cmd desc) = .ok (edit env name s).2.data := by
  unfold edit
  by_cases hc : s.data.contains name = true
  · cases h1 : (s.data.member name).value "cmd".toList with
    | error e => left; simp [hc, h1]
    | ok currentCmd =>
      cases h2 : (s.data.member name).value "desc".toList with
      | error e => left; simp [hc, h1, h2]
      | ok currentDesc =>
        simp only [hc, h1, h2, say]
        generalize hcmd : (if (!(getline s.stdin).1.isEmpty) = true then (getline s.stdin).1
          else currentCmd) = newCmd
        generalize hdesc : (if (!(getline (getline s.stdin).2).1.isEmpty) = true
          then (getline (getline s.stdin).2).1 else currentDesc) = newDesc
        cases ha : s.data.assign name (entry newCmd newDesc) with
        | error e => left; simp [ha]
        | ok d =>
          right
          refine ⟨newCmd, newDesc, ?_⟩
          rw [ha]
          simp only [Bool.not_true, Bool.false_eq_true, if_false]
          congr 1
          split
          · next e t hsave =>
            have h := congrArg (fun r => r.2.data) hsave
            simp only [save_data] at h
            exact h
          · next t hsave =>
            have h := congrArg (fun r => r.2.data) hsave
            simp only [save_data] at h
            exact h
  · left; simp [hc]

/-- C10, as the program has it: `add` and `edit` change the store only by
writing, under the name, the object with the two fields `cmd` and `desc`, so
an entry they insert or overwrite has both fields; `importFrom` stores under
every incoming key the incoming value as it is, so an entry it inserts or
overwrites has both fields exactly when the incoming entry has them. -/
theorem insert_update_fields :
    (∀ (env : Env) (name cmd desc : Str) (force : Bool) (s : Sys),
      (add env name cmd desc force s).2.data = s.data ∨
        (s.data.assign name (entry cmd desc) = .ok (add env name cmd desc force s).2.data ∧
          (add env name cmd desc force s).2.data.member name = entry cmd desc ∧
          HasBothFields ((add env name cmd desc force s).2.data.member name))) ∧
      (∀ (env : Env) (name : Str) (s : Sys),
        (edit env name s).2.data = s.data ∨
          ∃ cmd desc, s.data.assign name (entry cmd desc) = .ok (edit env name s).2.data ∧
            (edit env name s).2.data.member name = entry cmd desc ∧
            HasBothFields ((edit env name s).2.data.member name)) ∧
      (∀ (env : Env) (filename text : Str) (S I : Members) (s : Sys),
        s.data = .obj S → s.files (cStr filename) = some text →
        env.parse text = some (.obj I) → KeysSorted I →
        ∀ k v, lookup k I = some v →
          (importFrom env filename true s).2.data.member k = v ∧
            (HasBothFields ((importFrom env filename true s).2.data.member k) ↔
              HasBothFields v)) := by
  refine ⟨?_, ?_, ?_⟩
  · intro env name cmd desc force s
    rcases add_data env name cmd desc force s with h | h
    · exact Or.inl h
    · have hm := assign_member _ _ _ _ h
      exact Or.inr ⟨h, hm, hm ▸ hasBothFields_entry cmd desc⟩
  · intro env name s
    rcases edit_data env name s with h | ⟨cmd, desc, h⟩
    · exact Or.inl h
    · have hm := assign_member _ _ _ _ h
      exact Or.inr ⟨cmd, desc, h, hm, hm ▸ hasBothFields_entry cmd desc⟩
  · intro env filename text S I s hS hfile hparse hI k v hk
    have hn := keysSorted_nodup I hI
    have hd := importFrom_force_data env filename text S I s hS hfile hparse hn
    have hm : (importFrom env filename true s).2.data.member k = v := by
      rw [hd]
      simp [Json.member, lookup_mergeAll k S I hn, hk]
    exact ⟨hm, by rw [hm]⟩

/-- C10, witness: the imported entry `a` of the scenario is stored as it came,
with both fields. -/
theorem insert_update_fields_witness :
    (importFrom codecEnv "in.json".toList true
        (sysWithFile storeA "A".toList)).2.data.member "a".toList
      = entry "echo a".toList [] :=
  (insert_update_fields.2.2 codecEnv "in.json".toList "A".toList
    [("a".toList, entry "true".toList "old".toList)] incomingA
    (sysWithFile storeA "A".toList) rfl rfl rfl (by simp [incomingA, KeysSorted])
    "a".toList (entry "echo a".toList []) rfl).1

/-- C10, counterexample: importing, with `force`, a file whose entry `a` has a
command and no description into the empty store returns, and the inserted
entry `a` has no `desc` field. -/
theorem import_keeps_missing_field :
    (importFrom codecEnv "in.json".toList true (sysWithFile (.obj []) "B".toList)).1 = .ok () ∧
      (importFrom codecEnv "in.json".toList true
        (sysWithFile (.obj []) "B".toList)).2.data.contains "a".toList = true ∧
      ((importFrom codecEnv "in.json".toList true
        (sysWithFile (.obj []) "B".toList)).2.data.member "a".toList).contains
          "desc".toList = false ∧
      ¬ HasBothFields ((importFrom codecEnv "in.json".toList true
        (sysWithFile (.obj []) "B".toList)).2.data.member "a".toList) := by
  refine ⟨rfl, by decide, by decide, ?_⟩
  unfold HasBothFields
  decide

/-! ## Add, twice -/

theorem insert_insert_self (k : Str) (v : Json) (m : Members) :
    insert k v (insert k v m) = insert k v m := by
  induction m with
  | nil => simp [insert]
  | cons p t ih =>
    obtain ⟨a, b⟩ := p
    by_cases h1 : k < a
    · simp [insert, h1]
    · by_cases h2 : k = a
      · simp [insert, h1, h2]
      · simp [insert, h1, h2, ih]

theorem mem_insert (k : Str) (v : Json) (m : Members) (p : Str × Json)
    (hp : p ∈ insert k v m) : p = (k, v) ∨ p ∈ m := by
  induction m with
  | nil => simpa [insert] using hp
  | cons q t ih =>
    obtain ⟨a, b⟩ := q
    by_cases h1 : k < a
    · simp only [insert, h1, if_true, List.mem_cons] at hp
      rcases hp with e | e | e
      · exact Or.inl e
      · exact Or.inr (by simp [e])
      · exact Or.inr (by simp [e])
    · by_cases h2 : k = a
      · subst h2
        simp only [insert, h1, if_false, if_true, List.mem_cons] at hp
        rcases hp with e | e
        · exact Or.inl e
        · exact Or.inr (by simp [e])
      · simp only [insert, h1, h2, if_false, List.mem_cons] at hp
        rcases hp with e | e
        · exact Or.inr (by simp [e])
        · rcases ih e with e2 | e2
          · exact Or.inl e2
          · exact Or.inr (by simp [e2])

theorem insert_sorted (k : Str) (v : Json) (m : Members) (h : KeysSorted m) :
    KeysSorted (insert k v m) := by
  induction m with
  | nil => simp [insert, KeysSorted]
  | cons q t ih =>
    obtain ⟨a, b⟩ := q
    simp only [KeysSorted] at h
    by_cases h1 : k < a
    · simp only [insert, h1, if_true, KeysSorted]
      refine ⟨?_, h.1, h.2⟩
      intro p hp
      rcases List.mem_cons.mp hp with e | e
      · rw [e]; exact h1
      · exact lt_trans h1 (h.1 p e)
    · by_cases h2 : k = a
      · subst h2
        simp only [insert, h1, if_false, if_true, KeysSorted]
        exact ⟨h.1, h.2⟩
      · simp only [insert, h1, h2, if_false, KeysSorted]
        refine ⟨?_, ih h.2⟩
        intro p hp
        rcases mem_insert k v t p hp with e | e
        · rw [e]
          rcases lt_trichotomy k a with c | c | c
          · exact absurd c h1
          · exact absurd c h2
          · exact c
        · exact h.1 p e

theorem save_frame (env : Env) (s : Sys) :
    (save env s).2.configPath = s.configPath ∧ (save env s).2.verbose = s.verbose := by
  unfold save
  by_cases hw : env.canWrite s.configPath = true
  · cases hd : env.dump s.data with
    | none => simp [hw, openForWriting, hd]
    | some text =>
      by_cases hv : s.verbose = true <;> simp [hw, openForWriting, hd, hv, say]
  · simp [hw]

theorem add_force (env : Env) (name cmd desc : Str) (s : Sys)
    (hname : name ≠ []) (hcmd : cmd ≠ []) :
    add env name cmd desc true s =
      addEntry env name cmd desc
        (if isReservedName name then say (.warnReserved name) s else s) := by
  have he : (name.isEmpty || cmd.isEmpty) = false := by
    cases name with
    | nil => exact absurd rfl hname
    | cons a t =>
      cases cmd with
      | nil => exact absurd rfl hcmd
      | cons b u => rfl
  by_cases hr : isReservedName name = true
  · simp only [add, he, hr, addChecked, Bool.not_true, Bool.false_eq_true, if_false, if_true]
  · simp only [add, he, hr, addChecked, Bool.not_true, Bool.false_eq_true, if_false]

theorem addEntry_obj (env : Env) (name cmd desc : Str) (m : Members) (s : Sys)
    (hS : s.data = .obj m) :
    (addEntry env name cmd desc s).2.data = .obj (insert name (entry cmd desc) m) ∧
      (addEntry env name cmd desc s).2.configPath = s.configPath ∧
      (addEntry env name cmd desc s).2.verbose = s.verbose := by
  have ha : s.data.assign name (entry cmd desc) = .ok (.obj (insert name (entry cmd desc) m)) := by
    rw [hS]; rfl
  have hd := save_data env { s with data := .obj (insert name (entry cmd desc) m) }
  have hf := save_frame env { s with data := .obj (insert name (entry cmd desc) m) }
  cases hsave : save env { s with data := .obj (insert name (entry cmd desc) m) } with
  | mk r t =>
    rw [hsave] at hd hf
    have h1 : t.data = .obj (insert name (entry cmd desc) m) := hd
    have h2 : t.configPath = s.configPath := hf.1
    have h3 : t.verbose = s.verbose := hf.2
    cases r with
    | error e =>
      simp only [addEntry, ha, hsave]
      exact ⟨h1, h2, h3⟩
    | ok u =>
      simp only [addEntry, ha, hsave]
      by_cases hv : t.verbose = true
      · have hv2 : ∀ l, (say l t).verbose = true := fun _ => hv
        simp only [hv2, if_true]
        exact ⟨h1, h2, h3⟩
      · have hv2 : ∀ l, ((say l t).verbose = true) = False := fun _ => eq_false hv
        simp only [hv2, if_false]
        exact ⟨h1, h2, h3⟩

theorem addEntry_report (env : Env) (name cmd desc text : Str) (m : Members) (s : Sys)
    (hS : s.data = .obj m) (hw : env.canWrite s.configPath = true)
    (hdump : env.dump (.obj (insert name (entry cmd desc) m)) = some text) :
    (addEntry env name cmd desc s).1 = .ok () ∧
      printed (addEntry env name cmd desc s).2.trace =
        printed s.trace ++ addReport name cmd desc s.configPath false s.verbose
          (s.data.contains name) := by
  have ha : s.data.assign name (entry cmd desc) = .ok (.obj (insert name (entry cmd desc) m)) := by
    rw [hS]; rfl
  have hs := save_returns env { s with data := .obj (insert name (entry cmd desc) m) } text
    hw hdump
  have hf := save_frame env { s with data := .obj (insert name (entry cmd desc) m) }
  cases hsave : save env { s with data := .obj (insert name (entry cmd desc) m) } with
  | mk r t =>
    rw [hsave] at hs hf
    have h3 : t.verbose = s.verbose := hf.2
    have h4 : printed t.trace =
        printed s.trace ++ (if s.verbose then [.configSaved s.configPath] else []) := hs.2.2
    cases r with
    | error e => simp at hs
    | ok u =>
      simp only [addEntry, ha, hsave]
      refine ⟨trivial, ?_⟩
      by_cases hv : s.verbose = true
      · have hv2 : ∀ l, (say l t).verbose = true := fun _ => h3.trans hv
        simp only [hv2, if_true]
        simp [say, printed_append, printed, h4, addReport, hv]
      · have hv2 : ∀ l, ((say l t).verbose = true) = False :=
          fun _ => eq_false (fun e => hv (h3.symm.trans e))
        simp only [hv2, if_false]
        simp [say, printed_append, printed, h4, addReport, hv]

theorem addReport_reserved (name cmd desc configPath : Str) (reserved verbose isUpdate : Bool) :
    addReport name cmd desc configPath reserved verbose isUpdate =
      (if reserved then [.warnReserved name] else []) ++
        addReport name cmd desc configPath false verbose isUpdate := by
  simp [addReport]

theorem addReport_kind (name cmd desc configPath : Str) (reserved verbose isUpdate : Bool) :
    (Out.added name ∈ addReport name cmd desc configPath reserved verbose isUpdate ↔
        isUpdate = false) ∧
      (Out.updated name ∈ addReport name cmd desc configPath reserved verbose isUpdate ↔
        isUpdate = true) := by
  cases reserved <;> cases verbose <;> cases isUpdate <;> simp [addReport]

theorem add_force_facts (env : Env) (name cmd desc : Str) (m : Members) (s : Sys)
    (hname : name ≠ []) (hcmd : cmd ≠ []) (hS : s.data = .obj m) :
    (add env name cmd desc true s).2.data = .obj (insert name (entry cmd desc) m) ∧
      (add env name cmd desc true s).2.configPath = s.configPath ∧
      (add env name cmd desc true s).2.verbose = s.verbose ∧
      (env.canWrite s.configPath = true →
        (env.dump (.obj (insert name (entry cmd desc) m))).isSome = true →
        (add env name cmd desc true s).1 = .ok () ∧
          printed (add env name cmd desc true s).2.trace =
            printed s.trace ++ addReport name cmd desc s.configPath (isReservedName name)
              s.verbose (s.data.contains name)) := by
  rw [add_force env name cmd desc s hname hcmd, addReport_reserved]
  by_cases hr : isReservedName name = true
  · simp only [hr, if_true]
    have ho := addEntry_obj env name cmd desc m (say (.warnReserved name) s) hS
    refine ⟨ho.1, ho.2.1, ho.2.2, ?_⟩
    intro hw hd
    obtain ⟨text, ht⟩ := Option.isSome_iff_exists.mp hd
    have hrep := addEntry_report env name cmd desc text m (say (.warnReserved name) s) hS hw ht
    refine ⟨hrep.1, ?_⟩
    rw [hrep.2]
    simp [say, printed_append, printed]
  · simp only [hr, Bool.false_eq_true, if_false]
    have ho := addEntry_obj env name cmd desc m s hS
    refine ⟨ho.1, ho.2.1, ho.2.2, ?_⟩
    intro hw hd
    obtain ⟨text, ht⟩ := Option.isSome_iff_exists.mp hd
    have hrep := addEntry_report env name cmd desc text m s hS hw ht
    refine ⟨hrep.1, ?_⟩
    rw [hrep.2]
    simp

/-- C11: for a store `m`, a non-empty name and a non-empty command, `add` with
`force` leaves the store `m` with `name` mapped to exactly the object
`{cmd, desc}` and every other key as it was (and the keys still in order);
a second `add` with the same arguments leaves the same store.  When the
config file can be saved, both calls return; the first reports an insert if
`name` was absent and an update if it was present, the second reports an
update. -/
theorem add_twice (env : Env) (name cmd desc : Str) (m : Members) (s : Sys)
    (hname : name ≠ []) (hcmd : cmd ≠ []) (hS : s.data = .obj m) :
    (add env name cmd desc true s).2.data = .obj (insert name (entry cmd desc) m) ∧
      (add env name cmd desc true (add env name cmd desc true s).2).2.data =
        (add env name cmd desc true s).2.data ∧
      lookup name (insert name (entry cmd desc) m) = some (entry cmd desc) ∧
      (∀ k, k ≠ name → lookup k (insert name (entry cmd desc) m) = lookup k m) ∧
      (KeysSorted m → KeysSorted (insert name (entry cmd desc) m)) ∧
      (env.canWrite s.configPath = true →
        (env.dump (.obj (insert name (entry cmd desc) m))).isSome = true →
        (add env name cmd desc true s).1 = .ok () ∧
          printed (add env name cmd desc true s).2.trace =
            printed s.trace ++ addReport name cmd desc s.configPath (isReservedName name)
              s.verbose (s.data.contains name) ∧
          (add env name cmd desc true (add env name cmd desc true s).2).1 = .ok () ∧
          printed (add env name cmd desc true (add env name cmd desc true s).2).2.trace =
            printed (add env name cmd desc true s).2.trace ++
              addReport name cmd desc s.configPath (isReservedName name) s.verbose true) ∧
      (∀ reserved verbose isUpdate,
        (Out.added name ∈ addReport name cmd desc s.configPath reserved verbose isUpdate ↔
          isUpdate = false) ∧
        (Out.updated name ∈ addReport name cmd desc s.configPath reserved verbose isUpdate ↔
          isUpdate = true)) := by
  have h1 := add_force_facts env name cmd desc m s hname hcmd hS
  have h2 := add_force_facts env name cmd desc (insert name (entry cmd desc) m)
    (add env name cmd desc true s).2 hname hcmd h1.1
  rw [insert_insert_self, h1.2.1, h1.2.2.1] at h2
  have hc : (add env name cmd desc true s).2.data.contains name = true := by
    rw [h1.1]
    simp [Json.contains, lookup_insert_self]
  rw [hc] at h2
  refine ⟨h1.1, h2.1.trans h1.1.symm, lookup_insert_self _ _ _,
    fun k hk => lookup_insert_ne _ _ _ _ hk, insert_sorted _ _ _, ?_,
    fun r v u => addReport_kind name cmd desc s.configPath r v u⟩
  intro hw hd
  have a1 := h1.2.2.2 hw hd
  have a2 := h2.2.2.2 hw hd
  exact ⟨a1.1, a1.2, a2.1, a2.2⟩

/-- C11, witness: `add("build", "make -j4", "build project", force = true)` on
the empty store gives the one-entry store of the scenario and reports an
insert; done again, it gives the same store and reports an update. -/
theorem add_twice_witness :
    (add quietEnv "build".toList "make -j4".toList "build project".toList true
        (freshSys (.obj []))).2.data = buildStore ∧
      (add quietEnv "build".toList "make -j4".toList "build project".toList true
        (add quietEnv "build".toList "make -j4".toList "build project".toList true
          (freshSys (.obj []))).2).2.data = buildStore ∧
      printed (add quietEnv "build".toList "make -j4".toList "build project".toList true
        (add quietEnv "build".toList "make -j4".toList "build project".toList true
          (freshSys (.obj []))).2).2.trace
        = [.added "build".toList, .updated "build".toList] := by
  have h := add_twice quietEnv "build".toList "make -j4".toList "build project".toList []
    (freshSys (.obj [])) (by decide) (by decide) rfl
  have hr := h.2.2.2.2.2.1 (by decide) (by decide)
  refine ⟨h.1, h.2.1.trans h.1, ?_⟩
  rw [hr.2.2.2, hr.2.1]
  decide

end Om
